import Mathlib

/-!
Verification of the `processLogo` image-processing pipeline
(`src/unnamed/part_000` of the repository).

Shallow embedding notes, justifying the integer model of the source's
floating-point arithmetic (all quantities in the source are small integers
or IEEE-754 doubles derived from them):

* Distance thresholds.  The source compares `Math.sqrt(d)` (with `d` an
  integer sum of squares, `d ≤ 3 * 255^2`) against the integer constants
  40 and 45.  A correctly rounded square root of an integer in this range
  is monotone and collides for no two distinct integers (the gap between
  `sqrt d` and `sqrt (d+1)` is at least `1/884`, far above an ulp), so
  `Math.sqrt d < 40 ↔ d < 1600` and `Math.sqrt d < 45 ↔ d < 2025`, and the
  running-minimum comparison over distances is the same as over the
  integer squared distances.  The embedding therefore works with squared
  Euclidean distances (`d2`).

* `Math.round(x / 24) * 24` on a nonnegative integer `x` equals
  `((x + 12) / 24) * 24` in integer division: `x / 24` is a rational with
  denominator 24; exact halves are exactly representable as doubles and
  round up, and non-halves are at least `1/24 · 1/2` away from a half,
  far above the error of one double division.

* `Math.round(sum / count)` equals `(2 * sum + count) / (2 * count)` in
  integer division, by the same argument (the quotient is within `2^-45`
  of the true rational, whose distance to the nearest half-integer
  boundary, when not on it, is at least `1 / (2 * count)`).

* `finalCanvas.width = size` where `size = Math.max(w, h) * 1.2`:
  assigning a double to the canvas's `unsigned long` width truncates
  toward zero.  The double `1.2` is `1.2 - 0.2/2^52`, so the double
  product is within `2^-45` of the rational `6 * m / 5`; when `5 ∣ m` the
  product rounds to the exact integer `6 * m / 5`, and otherwise the true
  value is at least `1/5` away from any integer, so the truncation is
  exactly `(6 * m) / 5` in natural-number division in every case.

* `drawImage` destination offsets `(size - w) / 2` are doubles within
  `2^-45` of the rational `(6 * m / 5 - w) / 2`; the embedding uses that
  rational.  All comparisons made about it in this file (equality with
  the halves and fifths arising here, integrality) are unaffected by a
  `2^-45` perturbation.  When the offsets are integers, `drawImage` with
  equal source and destination extents is an exact pixel copy; at
  fractional offsets the rasterization is implementation-defined and the
  pixel content is deliberately left unmodelled (`cropBuf` returns
  `none`).
-/

set_option maxHeartbeats 4000000
set_option maxRecDepth 8000

namespace LogoProc

/-- An RGB triple (each channel a byte value). -/
structure RGB where
  r : Nat
  g : Nat
  b : Nat
deriving DecidableEq

/-- One RGBA pixel of the decoded buffer (`data[i] .. data[i+3]`). -/
structure Pixel where
  r : Nat
  g : Nat
  b : Nat
  a : Nat
deriving DecidableEq

def Pixel.rgb (p : Pixel) : RGB := ⟨p.r, p.g, p.b⟩

/-- A decoded image: width, height and the row-major RGBA buffer. -/
structure Img where
  width : Nat
  height : Nat
  data : List Pixel
deriving DecidableEq

/-- Squared Euclidean RGB distance; the source compares `Math.sqrt (d2 …)`
against constants, which is equivalent to comparing `d2` against their
squares (see the header comment). -/
def d2 (c d : RGB) : Int :=
  ((c.r : Int) - d.r) ^ 2 + ((c.g : Int) - d.g) ^ 2 + ((c.b : Int) - d.b) ^ 2

/-- The background reference sample: the pixel at buffer index 0
(`bgR/bgG/bgB/bgA` in the source). -/
def bgPix (img : Img) : Pixel := img.data.getD 0 ⟨0, 0, 0, 0⟩

/-- The background classifier of the source: if the reference alpha is 0
(`hasAlpha`), a pixel is background iff its alpha is `< 20`; otherwise it
is background iff its RGB distance to the reference is `< 40`
(`d2 < 1600`). -/
def isBackground (bg p : Pixel) : Bool :=
  let hasAlpha := bg.a == 0
  if !hasAlpha then
    decide (d2 p.rgb bg.rgb < 1600)
  else
    decide (p.a < 20)

/-- The quantization bucket key: each channel rounded to the nearest
multiple of 24 (`Math.round (c / 24) * 24`, see the header comment). -/
def bucketKey (c : RGB) : RGB :=
  ⟨((c.r + 12) / 24) * 24, ((c.g + 12) / 24) * 24, ((c.b + 12) / 24) * 24⟩

/-- A color accumulation bucket: running channel sums and a pixel count. -/
structure Bucket where
  r : Nat
  g : Nat
  b : Nat
  count : Nat
deriving DecidableEq

/-- Add a pixel to the accumulator under key `k`: update the existing
entry in place if the key is present, otherwise append a fresh entry
(JavaScript object property creation order = first-write order; the keys
contain commas, so they are never integer-like and iteration order is
insertion order). -/
def accAdd : List (RGB × Bucket) → RGB → Pixel → List (RGB × Bucket)
  | [], k, p => [(k, ⟨p.r, p.g, p.b, 1⟩)]
  | (k', b) :: rest, k, p =>
    if k' = k then (k', ⟨b.r + p.r, b.g + p.g, b.b + p.b, b.count + 1⟩) :: rest
    else (k', b) :: accAdd rest k p

/-- The state of the first pass: foreground bounding box, content flag and
the color accumulator. -/
structure Scan where
  minX : Nat
  minY : Nat
  maxX : Nat
  maxY : Nat
  hasContent : Bool
  acc : List (RGB × Bucket)
deriving DecidableEq

/-- Initial scan state (`minX = canvas.width`, `minY = canvas.height`,
`maxX = maxY = 0`, no content, empty accumulator). -/
def scanInit (img : Img) : Scan :=
  ⟨img.width, img.height, 0, 0, false, []⟩

/-- One iteration of the first pass at pixel index `i`: background pixels
leave the state unchanged (the buffer mutation is modelled by `pass1buf`);
foreground pixels set `hasContent`, widen the bounding box and accumulate
into their bucket. -/
def scanStep (bg : Pixel) (w : Nat) (i : Nat) (p : Pixel) (s : Scan) : Scan :=
  if isBackground bg p then s
  else
    let x := i % w
    let y := i / w
    { minX := min s.minX x, minY := min s.minY y,
      maxX := max s.maxX x, maxY := max s.maxY y,
      hasContent := true,
      acc := accAdd s.acc (bucketKey p.rgb) p }

/-- The first-pass loop, carrying the current pixel index. -/
def scanAux (bg : Pixel) (w : Nat) : Nat → List Pixel → Scan → Scan
  | _, [], s => s
  | i, p :: ps, s => scanAux bg w (i + 1) ps (scanStep bg w i p s)

def scanImg (img : Img) : Scan :=
  scanAux (bgPix img) img.width 0 img.data (scanInit img)

/-- The buffer after the first pass: background pixels get alpha 0, all
other pixels are untouched.  The source mutates in place, but the loop
reads each pixel before mutating only that pixel, and the reference color
is captured before the loop, so the per-pixel map is exact. -/
def pass1buf (img : Img) : List Pixel :=
  img.data.map (fun p => if isBackground (bgPix img) p then { p with a := 0 } else p)

/-- Stable descending insertion by bucket count.  `Array.prototype.sort`
with comparator `(a, b) => b.count - a.count` is a stable descending sort
(ES2019); any two stable sorts for the same preorder agree, so this
insertion sort computes the very list the source computes. -/
def insertDesc (x : Bucket) : List Bucket → List Bucket
  | [] => [x]
  | y :: ys => if y.count ≤ x.count then x :: y :: ys else y :: insertDesc x ys

def sortDesc : List Bucket → List Bucket
  | [] => []
  | x :: xs => insertDesc x (sortDesc xs)

/-- The true average color of a bucket:
`Math.round (sum / count) = (2 * sum + count) / (2 * count)` (header
comment). -/
def bucketAvg (b : Bucket) : RGB :=
  ⟨(2 * b.r + b.count) / (2 * b.count),
   (2 * b.g + b.count) / (2 * b.count),
   (2 * b.b + b.count) / (2 * b.count)⟩

/-- The candidate colors: bucket averages ranked by originating bucket
pixel count, descending (stable). -/
def candidatesOf (img : Img) : List RGB :=
  (sortDesc ((scanImg img).acc.map Prod.snd)).map bucketAvg

/-- Tag each candidate with its position.  JavaScript's
`palette.includes(candidates[i])` compares object references; distinct
candidate list entries are distinct objects even if they were equal as
colors, so object identity is position identity. -/
def tagFrom : Nat → List RGB → List (Nat × RGB)
  | _, [] => []
  | n, c :: cs => (n, c) :: tagFrom (n + 1) cs

/-- One step of the greedy distinctness selection: stop growing at 4
entries; admit a candidate only if every already-admitted color is at
distance ≥ 45 (`d2 ≥ 2025`). -/
def greedyStepT (pal : List (Nat × RGB)) (c : Nat × RGB) : List (Nat × RGB) :=
  if 4 ≤ pal.length then pal
  else if pal.all (fun p => decide (2025 ≤ d2 c.2 p.2)) then pal ++ [c]
  else pal

def greedyT (cands : List (Nat × RGB)) : List (Nat × RGB) :=
  cands.foldl greedyStepT []

/-- One step of the fallback fill: while fewer than 4 entries, push the
candidate unless that very candidate object is already in the palette
(reference equality = tag equality). -/
def fbStep (pal : List (Nat × RGB)) (c : Nat × RGB) : List (Nat × RGB) :=
  if pal.length < 4 ∧ ¬ (pal.any (fun p => p.1 == c.1)) then pal ++ [c] else pal

/-- The palette selection over tagged candidates: greedy phase, then the
fallback fill when fewer than 4 colors were admitted and candidates
exist. -/
def selectTagged (cands : List (Nat × RGB)) : List (Nat × RGB) :=
  let g := greedyT cands
  if g.length < 4 ∧ 0 < cands.length then cands.foldl fbStep g else g

def selectPalette (cands : List RGB) : List RGB :=
  (selectTagged (tagFrom 0 cands)).map Prod.snd

def paletteOf (img : Img) : List RGB := selectPalette (candidatesOf img)

/-- The colors admitted by the greedy phase alone. -/
def greedyColors (cands : List RGB) : List RGB :=
  (greedyT (tagFrom 0 cands)).map Prod.snd

/-- One iteration of the nearest-color loop: strict improvement of the
running minimum, so the first-encountered minimum wins. -/
def remapStep (c : RGB) (s : RGB × Int) (p : RGB) : RGB × Int :=
  if d2 c p < s.2 then (p, d2 c p) else s

/-- Nearest palette color to `c`.  The source starts with
`bestColor = palette[0]` and `minDist = Infinity`; its first loop
iteration always replaces that state with `(palette[0], dist palette[0])`,
so folding from that pair over the whole palette is the same computation. -/
def remapPix (pal : List RGB) (c : RGB) : RGB :=
  match pal with
  | [] => c
  | p0 :: _ => (pal.foldl (remapStep c) (p0, d2 c p0)).1

/-- The remap pass: skipped when the palette is empty; otherwise every
pixel with nonzero alpha is snapped to its nearest palette color with
alpha forced to 255, and alpha-0 pixels are skipped. -/
def remapBuf (pal : List RGB) (buf : List Pixel) : List Pixel :=
  if 0 < pal.length then
    buf.map (fun p =>
      if p.a == 0 then p
      else
        let c := remapPix pal p.rgb
        ⟨c.r, c.g, c.b, 255⟩)
  else buf

def remappedOf (img : Img) : List Pixel := remapBuf (paletteOf img) (pass1buf img)

/-- Content width and height of the foreground bounding box
(`maxX - minX + 1`, `maxY - minY + 1`). -/
def contentDims (img : Img) : Nat × Nat :=
  let s := scanImg img
  (s.maxX - s.minX + 1, s.maxY - s.minY + 1)

/-- The exact value of `size = Math.max(cw, ch) * 1.2` as a rational. -/
def sizeQ (m : Nat) : ℚ := (6 * m : ℚ) / 5

/-- The final canvas side: assigning the double `size` to the canvas's
`unsigned long` width truncates, giving `(6 * m) / 5` in natural division
(header comment). -/
def sideNat (m : Nat) : Nat := (6 * m) / 5

/-- A `drawImage` destination offset `(size - len) / 2` as a rational. -/
def destQ (m len : Nat) : ℚ := (sizeQ m - len) / 2

/-- The final crop/composite.  When both destination offsets are integers
the draw is an exact copy of the content sub-rectangle onto a transparent
square; at fractional offsets the platform rasterization is
implementation-defined and the pixel content is left unmodelled (`none`).
The canvas side (`sideNat`) is known in every case.

The guard is the integrality of the two rational offsets `destQ m cw` and
`destQ m ch`, written in natural-number arithmetic so that it evaluates in
the kernel: `destQ m len` is an integer iff `5 ∣ 6 * m` (otherwise its
denominator is a multiple of 5) and `sideNat m - len` is even (then
`sizeQ m = sideNat m` exactly); `destQ_eq_of_guard` below proves the
correspondence.

Fully transparent source pixels are stored as transparent black: the
canvas backing store is premultiplied, so a pixel written with alpha 0
reads back as `(0,0,0,0)`.  All alphas reaching this stage are 0 or 255
(the remap pass forces them), so no other pixel is altered by
premultiplication. -/
def cropBuf (buf : List Pixel) (w minX minY cw ch : Nat) : Option Img :=
  let m := max cw ch
  let side := sideNat m
  if (6 * m) % 5 = 0 ∧ (side - cw) % 2 = 0 ∧ (side - ch) % 2 = 0 then
    let dxn := (side - cw) / 2
    let dyn := (side - ch) / 2
    some ⟨side, side, (List.range (side * side)).map (fun i =>
      let x := i % side
      let y := i / side
      if dxn ≤ x ∧ x < dxn + cw ∧ dyn ≤ y ∧ y < dyn + ch then
        let p := buf.getD ((minY + (y - dyn)) * w + (minX + (x - dxn))) ⟨0, 0, 0, 0⟩
        if p.a == 0 then ⟨0, 0, 0, 0⟩ else p
      else ⟨0, 0, 0, 0⟩)⟩
  else none

/-- The environment: whether a 2d drawing context can be acquired for the
initial canvas and for the final canvas. -/
structure Env where
  ctx1 : Bool
  ctx2 : Bool
deriving DecidableEq

/-- The input: either a reference whose decode fails (`img.onerror`), or a
successfully decoded image. -/
inductive Input where
  | badImage (url : String)
  | image (url : String) (img : Img)
deriving DecidableEq

/-- The resolved value of the promise: either the original input reference
(pass-through) or a processed image (final canvas side, and its pixels
when the copy offsets are integral).  The function always resolves — the
promise executor installs no rejection path — which the totality of this
definition reflects. -/
inductive Result where
  | passthrough (url : String)
  | processed (side : Nat) (out : Option Img)
deriving DecidableEq

/-- The whole pipeline, mirroring the control flow of `processLogo`:
decode failure, missing initial context and zero foreground pixels all
pass the original reference through; otherwise palette selection, remap
and crop run, with a final pass-through if the crop-stage context is
missing. -/
def processLogo (env : Env) (inp : Input) : Result :=
  match inp with
  | .badImage url => .passthrough url
  | .image url img =>
    if env.ctx1 = false then .passthrough url
    else
      let s := scanImg img
      if s.hasContent = false then .passthrough url
      else
        let pal := paletteOf img
        let buf := remapBuf pal (pass1buf img)
        let cw := s.maxX - s.minX + 1
        let ch := s.maxY - s.minY + 1
        if env.ctx2 = false then .passthrough url
        else .processed (sideNat (max cw ch)) (cropBuf buf img.width s.minX s.minY cw ch)

/-! ### Concrete images used by witnesses and counterexamples -/

def whitePix : Pixel := ⟨255, 255, 255, 255⟩
def redPix : Pixel := ⟨255, 0, 0, 255⟩
def blackPix : Pixel := ⟨0, 0, 0, 255⟩

/-- A foreground pixel that is fully transparent but, in color mode, far
from the background color: classified foreground yet skipped by the remap
pass. -/
def bluePixT : Pixel := ⟨0, 0, 255, 0⟩

def pixOf (c : RGB) : Pixel := ⟨c.r, c.g, c.b, 255⟩

/-- Scenario A of the specification: a 10×10 white image with a solid red
4×4 block at rows/columns 3–6. -/
def imgA : Img :=
  ⟨10, 10, (List.range 100).map (fun i =>
    let x := i % 10
    let y := i / 10
    if 3 ≤ x ∧ x ≤ 6 ∧ 3 ≤ y ∧ y ≤ 6 then redPix else whitePix)⟩

/-- Five colors, each its own quantization bucket: `xC` is within
distance 40 of each of the other four, which are pairwise ≥ 45 apart. -/
def xC : RGB := ⟨128, 128, 128⟩
def aC : RGB := ⟨168, 128, 128⟩
def bC : RGB := ⟨88, 128, 128⟩
def cC : RGB := ⟨128, 168, 128⟩
def dC : RGB := ⟨128, 88, 128⟩

/-- A 10×1 image over a black background: five `xC` pixels (the dominant
bucket) followed by one pixel of each of `aC`, `bC`, `cC`, `dC`. -/
def img3 : Img :=
  ⟨10, 1, blackPix :: (List.replicate 5 (pixOf xC) ++
    [pixOf aC, pixOf bC, pixOf cC, pixOf dC])⟩

/-- A 12×12 white image with a solid red block at columns 1–9, rows 1–10,
and one fully transparent far-from-background pixel at (10, 5): content
bounds are 10×10, so the crop offsets are integral. -/
def img9 : Img :=
  ⟨12, 12, (List.range 144).map (fun i =>
    let x := i % 12
    let y := i / 12
    if 1 ≤ x ∧ x ≤ 9 ∧ 1 ≤ y ∧ y ≤ 10 then redPix
    else if x = 10 ∧ y = 5 then bluePixT
    else whitePix)⟩

/-- The exact processed output of `img9`: the red block recentered on a
12×12 transparent square. -/
def img9out : Img :=
  ⟨12, 12, (List.range 144).map (fun i =>
    let x := i % 12
    let y := i / 12
    if 1 ≤ x ∧ x ≤ 9 ∧ 1 ≤ y ∧ y ≤ 10 then redPix
    else ⟨0, 0, 0, 0⟩)⟩

/-- A minimal image with content: one white (background) pixel and one red
foreground pixel. -/
def imgW : Img := ⟨2, 1, [whitePix, redPix]⟩

/-! ### Basic lemmas -/

theorem d2_comm (c d : RGB) : d2 c d = d2 d c := by
  unfold d2; ring

/-! ### Accumulator lemmas -/

theorem accAdd_ne_nil (acc : List (RGB × Bucket)) (k : RGB) (p : Pixel) :
    accAdd acc k p ≠ [] := by
  cases acc with
  | nil => simp [accAdd]
  | cons e rest =>
    obtain ⟨k', b⟩ := e
    unfold accAdd
    split <;> simp

theorem accAdd_mem_self (acc : List (RGB × Bucket)) (k : RGB) (p : Pixel) :
    ∃ b, (k, b) ∈ accAdd acc k p ∧ 1 ≤ b.count := by
  induction acc with
  | nil => exact ⟨⟨p.r, p.g, p.b, 1⟩, by simp [accAdd], le_refl 1⟩
  | cons e rest ih =>
    obtain ⟨k', b⟩ := e
    unfold accAdd
    by_cases h : k' = k
    · subst h
      exact ⟨⟨b.r + p.r, b.g + p.g, b.b + p.b, b.count + 1⟩, by simp,
        by show 1 ≤ b.count + 1; omega⟩
    · obtain ⟨b1, hb1, hc⟩ := ih
      exact ⟨b1, by simp [h, hb1], hc⟩

theorem accAdd_pres (acc : List (RGB × Bucket)) (k : RGB) (p : Pixel)
    (k0 : RGB) (b0 : Bucket) (h : (k0, b0) ∈ acc) :
    ∃ b1, (k0, b1) ∈ accAdd acc k p ∧ b0.count ≤ b1.count := by
  induction acc with
  | nil => simp at h
  | cons e rest ih =>
    obtain ⟨k', b⟩ := e
    unfold accAdd
    by_cases hk : k' = k
    · subst hk
      rcases List.mem_cons.mp h with h1 | h1
      · rw [Prod.mk.injEq] at h1
        obtain ⟨rfl, rfl⟩ := h1
        exact ⟨⟨b0.r + p.r, b0.g + p.g, b0.b + p.b, b0.count + 1⟩, by simp,
          by show b0.count ≤ b0.count + 1; omega⟩
      · exact ⟨b0, by simp [h1], le_refl _⟩
    · rcases List.mem_cons.mp h with h1 | h1
      · rw [Prod.mk.injEq] at h1
        obtain ⟨rfl, rfl⟩ := h1
        exact ⟨b0, by simp [hk], le_refl _⟩
      · obtain ⟨b1, hb1, hc⟩ := ih h1
        exact ⟨b1, by simp [hk, hb1], hc⟩

/-! ### Scan-pass invariants -/

/-- One scan step can only widen the bounding box, keep `hasContent` set,
and keep accumulator entries (with non-decreasing counts). -/
theorem scanStep_mono (bg : Pixel) (w i : Nat) (p : Pixel) (s : Scan) :
    (scanStep bg w i p s).minX ≤ s.minX ∧ (scanStep bg w i p s).minY ≤ s.minY ∧
    s.maxX ≤ (scanStep bg w i p s).maxX ∧ s.maxY ≤ (scanStep bg w i p s).maxY ∧
    (s.hasContent = true → (scanStep bg w i p s).hasContent = true) ∧
    (∀ k b, (k, b) ∈ s.acc → ∃ b1, (k, b1) ∈ (scanStep bg w i p s).acc ∧ b.count ≤ b1.count) := by
  unfold scanStep
  split
  · exact ⟨le_refl _, le_refl _, le_refl _, le_refl _, fun h => h,
      fun k b hb => ⟨b, hb, le_refl _⟩⟩
  · refine ⟨min_le_left .., min_le_left .., le_max_left .., le_max_left .., fun _ => rfl,
      fun k b hb => ?_⟩
    exact accAdd_pres s.acc (bucketKey p.rgb) p k b hb

/-- The whole scan loop can only widen the bounding box, keep
`hasContent` set, and keep accumulator entries. -/
theorem scanAux_mono (bg : Pixel) (w : Nat) :
    ∀ (l : List Pixel) (i : Nat) (s : Scan),
    (scanAux bg w i l s).minX ≤ s.minX ∧ (scanAux bg w i l s).minY ≤ s.minY ∧
    s.maxX ≤ (scanAux bg w i l s).maxX ∧ s.maxY ≤ (scanAux bg w i l s).maxY ∧
    (s.hasContent = true → (scanAux bg w i l s).hasContent = true) ∧
    (∀ k b, (k, b) ∈ s.acc → ∃ b1, (k, b1) ∈ (scanAux bg w i l s).acc ∧ b.count ≤ b1.count)
  | [], i, s => ⟨le_refl _, le_refl _, le_refl _, le_refl _, fun h => h,
      fun k b hb => ⟨b, hb, le_refl _⟩⟩
  | p :: ps, i, s => by
    obtain ⟨s1, s2, s3, s4, s5, s6⟩ := scanStep_mono bg w i p s
    obtain ⟨r1, r2, r3, r4, r5, r6⟩ := scanAux_mono bg w ps (i + 1) (scanStep bg w i p s)
    refine ⟨le_trans r1 s1, le_trans r2 s2, le_trans s3 r3, le_trans s4 r4,
      fun h => r5 (s5 h), fun k b hb => ?_⟩
    obtain ⟨b1, hb1, hc1⟩ := s6 k b hb
    obtain ⟨b2, hb2, hc2⟩ := r6 k b1 hb1
    exact ⟨b2, hb2, le_trans hc1 hc2⟩

/-- If the scan loop encounters a foreground pixel at list offset `j`
(global pixel index `i + j`), the final state has content, its bounding
box brackets that pixel's coordinates, and the pixel's bucket is present
with a positive count. -/
theorem scanAux_reach (bg : Pixel) (w : Nat) :
    ∀ (l : List Pixel) (j i : Nat) (s : Scan) (p : Pixel),
    l[j]? = some p → isBackground bg p = false →
    (scanAux bg w i l s).hasContent = true ∧
    (scanAux bg w i l s).minX ≤ (i + j) % w ∧ (i + j) % w ≤ (scanAux bg w i l s).maxX ∧
    (scanAux bg w i l s).minY ≤ (i + j) / w ∧ (i + j) / w ≤ (scanAux bg w i l s).maxY ∧
    ∃ b, (bucketKey p.rgb, b) ∈ (scanAux bg w i l s).acc ∧ 1 ≤ b.count
  | [], j, i, s, p => by intro h; simp at h
  | q :: ps, 0, i, s, p => by
    intro h hbg
    simp only [List.getElem?_cons_zero, Option.some.injEq] at h
    subst h
    simp only [Nat.add_zero, scanAux]
    have hstep : scanStep bg w i q s =
        { minX := min s.minX (i % w), minY := min s.minY (i / w),
          maxX := max s.maxX (i % w), maxY := max s.maxY (i / w),
          hasContent := true, acc := accAdd s.acc (bucketKey q.rgb) q } := by
      unfold scanStep
      rw [hbg]
      simp
    obtain ⟨r1, r2, r3, r4, r5, r6⟩ := scanAux_mono bg w ps (i + 1) (scanStep bg w i q s)
    refine ⟨r5 (by rw [hstep]), ?_, ?_, ?_, ?_, ?_⟩
    · exact le_trans r1 (by rw [hstep]; exact min_le_right ..)
    · exact le_trans (by rw [hstep]; exact le_max_right ..) r3
    · exact le_trans r2 (by rw [hstep]; exact min_le_right ..)
    · exact le_trans (by rw [hstep]; exact le_max_right ..) r4
    · obtain ⟨b, hb, hc⟩ := accAdd_mem_self s.acc (bucketKey q.rgb) q
      obtain ⟨b1, hb1, hc1⟩ := r6 (bucketKey q.rgb) b (by rw [hstep]; exact hb)
      exact ⟨b1, hb1, le_trans hc hc1⟩
  | q :: ps, j + 1, i, s, p => by
    intro h hbg
    simp only [List.getElem?_cons_succ] at h
    have := scanAux_reach bg w ps j (i + 1) (scanStep bg w i q s) p h hbg
    rwa [show i + 1 + j = i + (j + 1) by omega] at this

/-- Along the scan, a state with content has a nonempty accumulator. -/
theorem scanAux_content_acc (bg : Pixel) (w : Nat) :
    ∀ (l : List Pixel) (i : Nat) (s : Scan),
    (s.hasContent = true → s.acc ≠ []) →
    ((scanAux bg w i l s).hasContent = true → (scanAux bg w i l s).acc ≠ [])
  | [], i, s => fun h => h
  | p :: ps, i, s => by
    intro h
    apply scanAux_content_acc bg w ps (i + 1) (scanStep bg w i p s)
    unfold scanStep
    split
    · exact h
    · intro _
      exact accAdd_ne_nil s.acc (bucketKey p.rgb) p

theorem scanImg_content_acc (img : Img) (h : (scanImg img).hasContent = true) :
    (scanImg img).acc ≠ [] :=
  scanAux_content_acc (bgPix img) img.width img.data 0 (scanInit img)
    (by intro hc; simp [scanInit] at hc) h

/-! ### Sorting lemmas -/

theorem insertDesc_length (x : Bucket) (l : List Bucket) :
    (insertDesc x l).length = l.length + 1 := by
  induction l with
  | nil => rfl
  | cons y ys ih =>
    unfold insertDesc
    split
    · simp
    · simp [ih]

theorem sortDesc_length (l : List Bucket) : (sortDesc l).length = l.length := by
  induction l with
  | nil => rfl
  | cons x xs ih => simp [sortDesc, insertDesc_length, ih]

theorem insertDesc_perm (x : Bucket) (l : List Bucket) :
    (insertDesc x l).Perm (x :: l) := by
  induction l with
  | nil => exact List.Perm.refl _
  | cons y ys ih =>
    unfold insertDesc
    split
    · exact List.Perm.refl _
    · exact List.Perm.trans (List.Perm.cons y ih) (List.Perm.swap x y ys)

theorem sortDesc_perm (l : List Bucket) : (sortDesc l).Perm l := by
  induction l with
  | nil => exact List.Perm.refl _
  | cons x xs ih =>
    exact List.Perm.trans (insertDesc_perm x (sortDesc xs)) (List.Perm.cons x ih)

/-! ### Tagging lemmas -/

theorem tagFrom_length (n : Nat) (l : List RGB) : (tagFrom n l).length = l.length := by
  induction l generalizing n with
  | nil => rfl
  | cons c cs ih => simp [tagFrom, ih]

theorem tagFrom_map_snd (n : Nat) (l : List RGB) : (tagFrom n l).map Prod.snd = l := by
  induction l generalizing n with
  | nil => rfl
  | cons c cs ih => simp [tagFrom, ih]

theorem mem_tagFrom (n : Nat) (l : List RGB) (e : Nat × RGB) :
    e ∈ tagFrom n l ↔ ∃ j, l[j]? = some e.2 ∧ e.1 = n + j := by
  induction l generalizing n with
  | nil => simp [tagFrom]
  | cons c cs ih =>
    unfold tagFrom
    constructor
    · intro h
      rcases List.mem_cons.mp h with h1 | h1
      · subst h1
        exact ⟨0, by simp, by simp⟩
      · obtain ⟨j, hj, hn⟩ := (ih (n + 1)).mp h1
        exact ⟨j + 1, by simpa using hj, by omega⟩
    · rintro ⟨j, hj, hn⟩
      cases j with
      | zero =>
        simp only [List.getElem?_cons_zero, Option.some.injEq] at hj
        have he : e = (n, c) := by
          obtain ⟨e1, e2⟩ := e
          simp only at hj hn ⊢
          simp only [Nat.add_zero] at hn
          rw [hn, hj]
        rw [he]
        exact List.mem_cons_self ..
      | succ j =>
        simp only [List.getElem?_cons_succ] at hj
        right
        exact (ih (n + 1)).mpr ⟨j, hj, by omega⟩

/-! ### Palette-size and nonemptiness lemmas -/

theorem greedyStepT_length_le (pal : List (Nat × RGB)) (c : Nat × RGB)
    (h : pal.length ≤ 4) : (greedyStepT pal c).length ≤ 4 := by
  unfold greedyStepT
  split
  · exact h
  · split
    · rename_i h4 _
      simp only [List.length_append, List.length_cons, List.length_nil]
      omega
    · exact h

theorem foldl_greedyStepT_length_le (l : List (Nat × RGB)) :
    ∀ pal, pal.length ≤ 4 → (l.foldl greedyStepT pal).length ≤ 4 := by
  induction l with
  | nil => exact fun pal h => h
  | cons c cs ih =>
    intro pal h
    exact ih (greedyStepT pal c) (greedyStepT_length_le pal c h)

theorem fbStep_length_le (pal : List (Nat × RGB)) (c : Nat × RGB)
    (h : pal.length ≤ 4) : (fbStep pal c).length ≤ 4 := by
  unfold fbStep
  split
  · rename_i hcond
    simp only [List.length_append, List.length_cons, List.length_nil]
    omega
  · exact h

theorem foldl_fbStep_length_le (l : List (Nat × RGB)) :
    ∀ pal, pal.length ≤ 4 → (l.foldl fbStep pal).length ≤ 4 := by
  induction l with
  | nil => exact fun pal h => h
  | cons c cs ih =>
    intro pal h
    exact ih (fbStep pal c) (fbStep_length_le pal c h)

theorem selectTagged_length_le (cands : List (Nat × RGB)) :
    (selectTagged cands).length ≤ 4 := by
  simp only [selectTagged, greedyT]
  split
  · exact foldl_fbStep_length_le cands _ (foldl_greedyStepT_length_le cands [] (by simp))
  · exact foldl_greedyStepT_length_le cands [] (by simp)

theorem paletteOf_length_le (img : Img) : (paletteOf img).length ≤ 4 := by
  unfold paletteOf selectPalette
  rw [List.length_map]
  exact selectTagged_length_le _

theorem greedyStepT_ne_nil (pal : List (Nat × RGB)) (c : Nat × RGB)
    (h : pal ≠ []) : greedyStepT pal c ≠ [] := by
  unfold greedyStepT
  split
  · exact h
  · split
    · simp
    · exact h

theorem fbStep_ne_nil (pal : List (Nat × RGB)) (c : Nat × RGB)
    (h : pal ≠ []) : fbStep pal c ≠ [] := by
  unfold fbStep
  split
  · simp
  · exact h

theorem foldl_greedyStepT_ne_nil (l : List (Nat × RGB)) :
    ∀ pal, pal ≠ [] → l.foldl greedyStepT pal ≠ [] := by
  induction l with
  | nil => exact fun pal h => h
  | cons c cs ih => exact fun pal h => ih _ (greedyStepT_ne_nil pal c h)

theorem foldl_fbStep_ne_nil (l : List (Nat × RGB)) :
    ∀ pal, pal ≠ [] → l.foldl fbStep pal ≠ [] := by
  induction l with
  | nil => exact fun pal h => h
  | cons c cs ih => exact fun pal h => ih _ (fbStep_ne_nil pal c h)

theorem greedyT_ne_nil (cands : List (Nat × RGB)) (h : cands ≠ []) :
    greedyT cands ≠ [] := by
  obtain ⟨c, cs, rfl⟩ := List.exists_cons_of_ne_nil h
  unfold greedyT
  rw [List.foldl_cons]
  apply foldl_greedyStepT_ne_nil
  simp [greedyStepT]

theorem selectTagged_ne_nil (cands : List (Nat × RGB)) (h : cands ≠ []) :
    selectTagged cands ≠ [] := by
  simp only [selectTagged]
  split
  · exact foldl_fbStep_ne_nil cands _ (greedyT_ne_nil cands h)
  · exact greedyT_ne_nil cands h

theorem selectPalette_ne_nil (cands : List RGB) (h : cands ≠ []) :
    selectPalette cands ≠ [] := by
  unfold selectPalette
  simp only [ne_eq, List.map_eq_nil_iff]
  apply selectTagged_ne_nil
  intro hc
  apply h
  have := tagFrom_length 0 cands
  rw [hc] at this
  exact List.length_eq_zero.mp this.symm

theorem candidatesOf_ne_nil (img : Img) (h : (scanImg img).hasContent = true) :
    candidatesOf img ≠ [] := by
  unfold candidatesOf
  simp only [ne_eq, List.map_eq_nil_iff]
  intro hs
  have hlen := sortDesc_length ((scanImg img).acc.map Prod.snd)
  rw [hs] at hlen
  simp only [List.length_nil, List.length_map] at hlen
  exact scanImg_content_acc img h (List.length_eq_zero.mp hlen.symm)

theorem paletteOf_ne_nil (img : Img) (h : (scanImg img).hasContent = true) :
    paletteOf img ≠ [] :=
  selectPalette_ne_nil _ (candidatesOf_ne_nil img h)

/-! ### Greedy pairwise-distance invariant -/

theorem greedyStepT_pairwise (pal : List (Nat × RGB)) (c : Nat × RGB)
    (h : pal.Pairwise (fun p q => 2025 ≤ d2 p.2 q.2)) :
    (greedyStepT pal c).Pairwise (fun p q => 2025 ≤ d2 p.2 q.2) := by
  unfold greedyStepT
  split
  · exact h
  · split
    · rename_i hall
      rw [List.pairwise_append]
      refine ⟨h, List.pairwise_singleton .., fun p hp q hq => ?_⟩
      simp only [List.mem_singleton] at hq
      subst hq
      have := List.all_eq_true.mp hall p hp
      rw [d2_comm]
      exact of_decide_eq_true this
    · exact h

theorem foldl_greedyStepT_pairwise (l : List (Nat × RGB)) :
    ∀ pal, pal.Pairwise (fun p q => 2025 ≤ d2 p.2 q.2) →
    (l.foldl greedyStepT pal).Pairwise (fun p q => 2025 ≤ d2 p.2 q.2) := by
  induction l with
  | nil => exact fun pal h => h
  | cons c cs ih => exact fun pal h => ih _ (greedyStepT_pairwise pal c h)

theorem greedyT_pairwise (cands : List (Nat × RGB)) :
    (greedyT cands).Pairwise (fun p q => 2025 ≤ d2 p.2 q.2) :=
  foldl_greedyStepT_pairwise cands [] (List.Pairwise.nil)

/-! ### Nearest-palette-color (remap) lemmas -/

/-- The running-minimum fold either keeps the initial best (when nothing
improves on it) or returns the first element of the list achieving the
strictly smallest distance so far: everything before it is strictly
farther, everything after it no closer. -/
theorem remapFold_spec (c : RGB) :
    ∀ (l : List RGB) (b : RGB),
    ((l.foldl (remapStep c) (b, d2 c b)).1 = b ∧ ∀ q ∈ l, d2 c b ≤ d2 c q) ∨
    (∃ l1 l2, l = l1 ++ (l.foldl (remapStep c) (b, d2 c b)).1 :: l2 ∧
      d2 c (l.foldl (remapStep c) (b, d2 c b)).1 < d2 c b ∧
      (∀ q ∈ l1, d2 c (l.foldl (remapStep c) (b, d2 c b)).1 < d2 c q) ∧
      (∀ q ∈ l2, d2 c (l.foldl (remapStep c) (b, d2 c b)).1 ≤ d2 c q)) := by
  intro l
  induction l with
  | nil => exact fun b => Or.inl ⟨rfl, by simp⟩
  | cons p ps ih =>
    intro b
    rw [List.foldl_cons]
    by_cases h : d2 c p < d2 c b
    · rw [show remapStep c (b, d2 c b) p = (p, d2 c p) from by simp [remapStep, h]]
      rcases ih p with ⟨hres, hall⟩ | ⟨l1, l2, heq, hlt, h1, h2⟩
      · refine Or.inr ⟨[], ps, by simp [hres], ?_, by simp, ?_⟩
        · rw [hres]; exact h
        · intro q hq
          rw [hres]
          exact hall q hq
      · refine Or.inr ⟨p :: l1, l2, by rw [List.cons_append, ← heq], lt_trans hlt h, ?_, h2⟩
        intro q hq
        rcases List.mem_cons.mp hq with rfl | hq1
        · exact hlt
        · exact h1 q hq1
    · rw [show remapStep c (b, d2 c b) p = (b, d2 c b) from by simp [remapStep, h]]
      rcases ih b with ⟨hres, hall⟩ | ⟨l1, l2, heq, hlt, h1, h2⟩
      · refine Or.inl ⟨hres, ?_⟩
        intro q hq
        rcases List.mem_cons.mp hq with rfl | hq1
        · exact not_lt.mp h
        · exact hall q hq1
      · refine Or.inr ⟨p :: l1, l2, by rw [List.cons_append, ← heq], hlt, ?_, h2⟩
        intro q hq
        rcases List.mem_cons.mp hq with rfl | hq1
        · exact lt_of_lt_of_le hlt (not_lt.mp h)
        · exact h1 q hq1

/-- `remapPix` returns the first palette entry of minimal distance: the
palette splits as `l1 ++ result :: l2` with every entry of `l1` strictly
farther from `c` and every entry of the whole palette no closer. -/
theorem remapPix_spec (pal : List RGB) (c : RGB) (h : pal ≠ []) :
    ∃ l1 l2, pal = l1 ++ remapPix pal c :: l2 ∧
      (∀ q ∈ pal, d2 c (remapPix pal c) ≤ d2 c q) ∧
      (∀ q ∈ l1, d2 c (remapPix pal c) < d2 c q) := by
  obtain ⟨p0, ps, rfl⟩ := List.exists_cons_of_ne_nil h
  have hpix : remapPix (p0 :: ps) c = ((p0 :: ps).foldl (remapStep c) (p0, d2 c p0)).1 := rfl
  rcases remapFold_spec c (p0 :: ps) p0 with ⟨hres, hall⟩ | ⟨l1, l2, heq, hlt, h1, h2⟩
  · rw [hpix, hres]
    exact ⟨[], ps, rfl, hall, by simp⟩
  · rw [hpix]
    refine ⟨l1, l2, heq, ?_, h1⟩
    intro q hq
    rw [heq] at hq
    rcases List.mem_append.mp hq with hq1 | hq2
    · exact le_of_lt (h1 q hq1)
    · rcases List.mem_cons.mp hq2 with rfl | hq3
      · exact le_refl _
      · exact h2 q hq3

/-- Index access through the remap pass when the palette is nonempty. -/
theorem remapBuf_getElem? (pal : List RGB) (buf : List Pixel) (i : Nat)
    (hpal : 0 < pal.length) :
    (remapBuf pal buf)[i]? = buf[i]?.map (fun p =>
      if p.a == 0 then p
      else
        let c := remapPix pal p.rgb
        ⟨c.r, c.g, c.b, 255⟩) := by
  unfold remapBuf
  rw [if_pos hpal, List.getElem?_map]

/-- Index access through the first pass. -/
theorem pass1buf_getElem? (img : Img) (i : Nat) :
    (pass1buf img)[i]? = img.data[i]?.map (fun p =>
      if isBackground (bgPix img) p then { p with a := 0 } else p) := by
  unfold pass1buf
  rw [List.getElem?_map]

/-! ### Untagged views of the palette selection

The source's fallback tests `palette.includes(candidates[i])`, i.e. object
identity, which the tagged model renders as tag identity.  Because the
candidate colors of an actual run are pairwise distinct (`candidatesOf_nodup`
below), tag identity and color identity coincide, and the selection can be
described on plain colors. -/

/-- Untagged greedy step (used only to state lemmas). -/
def greedyStepU (pal : List RGB) (c : RGB) : List RGB :=
  if 4 ≤ pal.length then pal
  else if pal.all (fun p => decide (2025 ≤ d2 c p)) then pal ++ [c]
  else pal

/-- Untagged fallback step: push a candidate color not yet in the palette
while the palette has fewer than 4 entries. -/
def fbU (pal : List RGB) (c : RGB) : List RGB :=
  if pal.length < 4 ∧ c ∉ pal then pal ++ [c] else pal

theorem greedyStepT_cases (pal : List (Nat × RGB)) (c : Nat × RGB) :
    greedyStepT pal c = pal ∨ greedyStepT pal c = pal ++ [c] := by
  unfold greedyStepT
  split
  · exact Or.inl rfl
  · split
    · exact Or.inr rfl
    · exact Or.inl rfl

theorem fbStep_cases (pal : List (Nat × RGB)) (c : Nat × RGB) :
    fbStep pal c = pal ∨ fbStep pal c = pal ++ [c] := by
  unfold fbStep
  split
  · exact Or.inr rfl
  · exact Or.inl rfl

/-- Both selection folds only append elements drawn from the candidate
list: the result is the initial palette followed by a sublist of the
input. -/
theorem foldl_greedyStepT_append (l : List (Nat × RGB)) :
    ∀ pal, ∃ t, l.foldl greedyStepT pal = pal ++ t ∧ List.Sublist t l := by
  induction l with
  | nil => exact fun pal => ⟨[], by simp, List.Sublist.refl _⟩
  | cons c cs ih =>
    intro pal
    rw [List.foldl_cons]
    rcases greedyStepT_cases pal c with hstep | hstep
    · obtain ⟨t, ht, hsub⟩ := ih pal
      exact ⟨t, by rw [hstep, ht], List.Sublist.cons c hsub⟩
    · obtain ⟨t, ht, hsub⟩ := ih (pal ++ [c])
      exact ⟨c :: t, by rw [hstep, ht, List.append_assoc]; rfl,
        List.Sublist.cons₂ c hsub⟩

theorem foldl_fbStep_append (l : List (Nat × RGB)) :
    ∀ pal, ∃ t, l.foldl fbStep pal = pal ++ t ∧ List.Sublist t l := by
  induction l with
  | nil => exact fun pal => ⟨[], by simp, List.Sublist.refl _⟩
  | cons c cs ih =>
    intro pal
    rw [List.foldl_cons]
    rcases fbStep_cases pal c with hstep | hstep
    · obtain ⟨t, ht, hsub⟩ := ih pal
      exact ⟨t, by rw [hstep, ht], List.Sublist.cons c hsub⟩
    · obtain ⟨t, ht, hsub⟩ := ih (pal ++ [c])
      exact ⟨c :: t, by rw [hstep, ht, List.append_assoc]; rfl,
        List.Sublist.cons₂ c hsub⟩

/-- Over a duplicate-free candidate list, two tagged candidates have equal
tags iff they have equal colors. -/
theorem tagFrom_inj (cands : List RGB) (hnd : cands.Nodup)
    (e f : Nat × RGB) (he : e ∈ tagFrom 0 cands) (hf : f ∈ tagFrom 0 cands) :
    e.1 = f.1 ↔ e.2 = f.2 := by
  obtain ⟨j, hj, hjn⟩ := (mem_tagFrom 0 cands e).mp he
  obtain ⟨k, hk, hkn⟩ := (mem_tagFrom 0 cands f).mp hf
  simp only [Nat.zero_add] at hjn hkn
  constructor
  · intro h
    have hjk : j = k := by omega
    subst hjk
    rw [hj] at hk
    exact Option.some.inj hk
  · intro h
    have hjk : j = k := by
      obtain ⟨hjlt, _⟩ := List.getElem?_eq_some.mp hj
      exact List.getElem?_inj hjlt hnd (by rw [hj, hk, h])
    omega

/-- The tagged fallback fold computes, color-wise, the untagged fold, as
long as every tag in sight comes from the (duplicate-free) candidate
list. -/
theorem foldl_fbStep_map_snd (cands : List RGB) (hnd : cands.Nodup) :
    ∀ (l pal : List (Nat × RGB)),
    (∀ x ∈ l, x ∈ tagFrom 0 cands) → (∀ x ∈ pal, x ∈ tagFrom 0 cands) →
    (l.foldl fbStep pal).map Prod.snd =
      (l.map Prod.snd).foldl fbU (pal.map Prod.snd) := by
  intro l
  induction l with
  | nil => intro pal _ _; rfl
  | cons c cs ih =>
    intro pal hl hpal
    have hc : c ∈ tagFrom 0 cands := hl c (List.mem_cons_self ..)
    have hiff : (pal.any (fun p => p.1 == c.1)) = true ↔ c.2 ∈ pal.map Prod.snd := by
      rw [List.any_eq_true]
      constructor
      · rintro ⟨p, hp, hpeq⟩
        have : p.1 = c.1 := by simpa using hpeq
        have := (tagFrom_inj cands hnd p c (hpal p hp) hc).mp this
        exact List.mem_map.mpr ⟨p, hp, this⟩
      · intro hmem
        obtain ⟨p, hp, hsnd⟩ := List.mem_map.mp hmem
        refine ⟨p, hp, ?_⟩
        have := (tagFrom_inj cands hnd p c (hpal p hp) hc).mpr hsnd
        simpa using this
    have hstep : (fbStep pal c).map Prod.snd = fbU (pal.map Prod.snd) c.2 := by
      unfold fbStep fbU
      by_cases hcond : (pal.map Prod.snd).length < 4 ∧ c.2 ∉ pal.map Prod.snd
      · rw [if_pos hcond, if_pos ⟨by simpa using hcond.1, fun hany => hcond.2 (hiff.mp hany)⟩]
        simp
      · rw [if_neg hcond, if_neg ?_]
        intro ⟨h1, h2⟩
        exact hcond ⟨by simpa using h1, fun hmem => h2 (hiff.mpr hmem)⟩
    rw [List.foldl_cons, List.map_cons, List.foldl_cons, ← hstep]
    rcases fbStep_cases pal c with hfb | hfb
    · exact ih (fbStep pal c) (fun x hx => hl x (List.mem_cons_of_mem c hx))
        (fun x hx => hpal x (hfb ▸ hx))
    · refine ih (fbStep pal c) (fun x hx => hl x (List.mem_cons_of_mem c hx)) ?_
      intro x hx
      rw [hfb] at hx
      rcases List.mem_append.mp hx with hx1 | hx2
      · exact hpal x hx1
      · rw [List.mem_singleton.mp hx2]
        exact hc

/-- The tagged greedy fold computes, color-wise, the untagged fold (the
distance test never looks at tags). -/
theorem foldl_greedyStepT_map_snd :
    ∀ (l pal : List (Nat × RGB)),
    (l.foldl greedyStepT pal).map Prod.snd =
      (l.map Prod.snd).foldl greedyStepU (pal.map Prod.snd) := by
  intro l
  induction l with
  | nil => intro pal; rfl
  | cons c cs ih =>
    intro pal
    have hlen : (pal.map Prod.snd).length = pal.length := List.length_map ..
    have hall : ((pal.map Prod.snd).all fun p => decide (2025 ≤ d2 c.2 p)) =
        (pal.all fun p => decide (2025 ≤ d2 c.2 p.2)) := by
      induction pal with
      | nil => rfl
      | cons e es ihp => simp [ihp]
    have hstep : (greedyStepT pal c).map Prod.snd = greedyStepU (pal.map Prod.snd) c.2 := by
      unfold greedyStepT greedyStepU
      by_cases h4 : 4 ≤ pal.length
      · simp [h4, hlen]
      · by_cases hA : (pal.all fun p => decide (2025 ≤ d2 c.2 p.2)) = true
        · simp [h4, hlen, hall, hA]
        · simp [h4, hlen, hall, hA]
    rw [List.foldl_cons, List.map_cons, List.foldl_cons, ← hstep]
    exact ih (greedyStepT pal c)

theorem greedyColors_eq_foldU (cands : List RGB) :
    greedyColors cands = cands.foldl greedyStepU [] := by
  unfold greedyColors greedyT
  rw [foldl_greedyStepT_map_snd (tagFrom 0 cands) [], tagFrom_map_snd]
  rfl

/-- A saturated palette absorbs the whole untagged fallback fold. -/
theorem foldl_fbU_of_four (l : List RGB) :
    ∀ pal, 4 ≤ pal.length → l.foldl fbU pal = pal := by
  induction l with
  | nil => exact fun pal _ => rfl
  | cons c cs ih =>
    intro pal h4
    rw [List.foldl_cons, show fbU pal c = pal from by unfold fbU; rw [if_neg]; omega]
    exact ih pal h4

/-- The untagged fallback fold appends, in order, the first candidates not
already in the palette, until the palette has 4 entries. -/
theorem foldl_fbU_eq (l : List RGB) (hnd : l.Nodup) :
    ∀ pal, l.foldl fbU pal =
      pal ++ (l.filter (fun c => decide (c ∉ pal))).take (4 - pal.length) := by
  induction l with
  | nil => intro pal; simp
  | cons c cs ih =>
    intro pal
    obtain ⟨hcn, hcs⟩ := List.nodup_cons.mp hnd
    rw [List.foldl_cons]
    by_cases hmem : c ∈ pal
    · rw [show fbU pal c = pal from by unfold fbU; rw [if_neg]; intro h; exact h.2 hmem]
      rw [ih hcs pal, List.filter_cons_of_neg (by simpa using hmem)]
    · by_cases h4 : 4 ≤ pal.length
      · rw [show fbU pal c = pal from by unfold fbU; rw [if_neg]; omega]
        rw [foldl_fbU_of_four cs pal h4, show 4 - pal.length = 0 from by omega]
        simp
      · rw [show fbU pal c = pal ++ [c] from by unfold fbU; rw [if_pos ⟨by omega, hmem⟩]]
        rw [ih hcs (pal ++ [c])]
        have hfc : cs.filter (fun x => decide (x ∉ pal ++ [c])) =
            cs.filter (fun x => decide (x ∉ pal)) := by
          apply List.filter_congr
          intro x hx
          have hxc : x ≠ c := fun h => hcn (h ▸ hx)
          simp [hxc]
        rw [hfc, List.filter_cons_of_pos (by simpa using hmem)]
        have hlen : (pal ++ [c]).length = pal.length + 1 := by simp
        rw [hlen, List.append_assoc]
        congr 1
        rw [show 4 - pal.length = (4 - (pal.length + 1)) + 1 from by omega]
        rfl

/-- When the candidate colors are pairwise distinct (which the pipeline
guarantees), the selected palette is the greedy phase's output followed by
the first not-yet-admitted candidates, in ranking order, up to 4 entries. -/
theorem selectPalette_eq_of_nodup (cands : List RGB) (hnd : cands.Nodup) :
    selectPalette cands = greedyColors cands ++
      (cands.filter (fun c => decide (c ∉ greedyColors cands))).take
        (4 - (greedyColors cands).length) := by
  unfold selectPalette
  simp only [selectTagged]
  split
  · rename_i hcond
    have hg : ∀ x ∈ greedyT (tagFrom 0 cands), x ∈ tagFrom 0 cands := by
      intro x hx
      obtain ⟨t, ht, hsub⟩ := foldl_greedyStepT_append (tagFrom 0 cands) []
      unfold greedyT at hx
      rw [ht] at hx
      simp only [List.nil_append] at hx
      exact hsub.mem hx
    rw [foldl_fbStep_map_snd cands hnd (tagFrom 0 cands) (greedyT (tagFrom 0 cands))
      (fun x hx => hx) hg, tagFrom_map_snd]
    rw [foldl_fbU_eq cands hnd]
    rfl
  · rename_i hcond
    rw [not_and_or] at hcond
    rcases hcond with h4 | hnil
    · have hle := foldl_greedyStepT_length_le (tagFrom 0 cands) [] (by simp)
      have h4' : (greedyT (tagFrom 0 cands)).length = 4 := by
        unfold greedyT at *
        omega
      have hlen : (greedyColors cands).length = 4 := by
        unfold greedyColors
        rw [List.length_map]
        exact h4'
      rw [show (4 : Nat) - (greedyColors cands).length = 0 from by omega]
      simp [greedyColors]
    · have hcnil : cands = [] := by
        have := tagFrom_length 0 cands
        simp only [not_lt, Nat.le_zero] at hnil
        rw [hnil] at this
        exact List.length_eq_zero.mp this.symm
      subst hcnil
      simp [greedyColors, greedyT, tagFrom]

/-! ### Distinctness of the candidate colors

Every accumulator entry's key is a channel-wise multiple of 24, and each
channel sum stays within `count · [key - 12, key + 11]`, because a pixel
lands in a bucket only when its key is that bucket's key.  Hence each
bucket's average color lies in the cube `[key - 12, key + 11]³`, and the
cubes of distinct keys are disjoint: candidate colors never repeat. -/

/-- Invariant of a single accumulator entry. -/
def entryOK (e : RGB × Bucket) : Prop :=
  1 ≤ e.2.count ∧
  e.1.r % 24 = 0 ∧ e.1.g % 24 = 0 ∧ e.1.b % 24 = 0 ∧
  e.1.r * e.2.count ≤ e.2.r + 12 * e.2.count ∧ e.2.r ≤ e.1.r * e.2.count + 11 * e.2.count ∧
  e.1.g * e.2.count ≤ e.2.g + 12 * e.2.count ∧ e.2.g ≤ e.1.g * e.2.count + 11 * e.2.count ∧
  e.1.b * e.2.count ≤ e.2.b + 12 * e.2.count ∧ e.2.b ≤ e.1.b * e.2.count + 11 * e.2.count

/-- Invariant of the whole accumulator: pairwise-distinct keys, all
entries well-formed. -/
def accOK (acc : List (RGB × Bucket)) : Prop :=
  (acc.map Prod.fst).Nodup ∧ ∀ e ∈ acc, entryOK e

/-- A channel and its bucket-key channel are at most 12 / 11 apart. -/
theorem bucketKey_channel_bounds (x : Nat) :
    ((x + 12) / 24) * 24 ≤ x + 12 ∧ x ≤ ((x + 12) / 24) * 24 + 11 ∧
    (((x + 12) / 24) * 24) % 24 = 0 := by
  have hdm := Nat.div_add_mod (x + 12) 24
  have hmod : (x + 12) % 24 < 24 := Nat.mod_lt _ (by norm_num)
  refine ⟨?_, ?_, Nat.mul_mod_left ..⟩
  · omega
  · omega

/-- Keys of the accumulator after an insertion. -/
theorem accAdd_keys (acc : List (RGB × Bucket)) (k : RGB) (p : Pixel) :
    (accAdd acc k p).map Prod.fst =
      if k ∈ acc.map Prod.fst then acc.map Prod.fst else acc.map Prod.fst ++ [k] := by
  induction acc with
  | nil => simp [accAdd]
  | cons e rest ih =>
    obtain ⟨k', b⟩ := e
    unfold accAdd
    by_cases hk : k' = k
    · subst hk
      simp
    · rw [if_neg hk]
      simp only [List.map_cons, ih]
      by_cases hmem : k ∈ rest.map Prod.fst
      · rw [if_pos hmem, if_pos (by simp [hmem])]
      · rw [if_neg hmem,
          if_neg (by simp only [List.mem_cons, not_or]; exact ⟨fun h => hk h.symm, hmem⟩),
          List.cons_append]

/-- Inserting a pixel under its own bucket key preserves the accumulator
invariant. -/
theorem accAdd_OK (acc : List (RGB × Bucket)) (p : Pixel) (h : accOK acc) :
    accOK (accAdd acc (bucketKey p.rgb) p) := by
  obtain ⟨hnd, hent⟩ := h
  constructor
  · rw [accAdd_keys]
    split
    · exact hnd
    · rename_i hmem
      exact List.Nodup.append hnd (List.nodup_singleton _)
        (by simpa [List.disjoint_right] using hmem)
  · clear hnd
    induction acc with
    | nil =>
      intro e he
      simp only [accAdd, List.mem_singleton] at he
      subst he
      obtain ⟨hr1, hr2, hr3⟩ := bucketKey_channel_bounds p.r
      obtain ⟨hg1, hg2, hg3⟩ := bucketKey_channel_bounds p.g
      obtain ⟨hb1, hb2, hb3⟩ := bucketKey_channel_bounds p.b
      refine ⟨le_refl 1, hr3, hg3, hb3, ?_, ?_, ?_, ?_, ?_, ?_⟩ <;>
        simp only [bucketKey, Pixel.rgb] <;> omega
    | cons e0 rest ih =>
      obtain ⟨k', b⟩ := e0
      intro e he
      unfold accAdd at he
      by_cases hk : k' = bucketKey p.rgb
      · rw [if_pos hk] at he
        rcases List.mem_cons.mp he with he1 | he1
        · subst he1
          have hold := hent (k', b) (List.mem_cons_self ..)
          obtain ⟨hc, hr0, hg0, hb0, h1, h2, h3, h4, h5, h6⟩ := hold
          subst hk
          obtain ⟨hr1, hr2, _⟩ := bucketKey_channel_bounds p.r
          obtain ⟨hg1, hg2, _⟩ := bucketKey_channel_bounds p.g
          obtain ⟨hb1, hb2, _⟩ := bucketKey_channel_bounds p.b
          simp only [entryOK, bucketKey, Pixel.rgb] at *
          refine ⟨by omega, hr0, hg0, hb0, ?_, ?_, ?_, ?_, ?_, ?_⟩ <;>
            simp only [Nat.mul_add, Nat.mul_one] <;> omega
        · exact hent e (List.mem_cons_of_mem _ he1)
      · rw [if_neg hk] at he
        rcases List.mem_cons.mp he with he1 | he1
        · subst he1
          exact hent (k', b) (List.mem_cons_self ..)
        · exact ih (fun e2 he2 => hent e2 (List.mem_cons_of_mem _ he2)) e he1

/-- The scan loop preserves the accumulator invariant. -/
theorem scanAux_accOK (bg : Pixel) (w : Nat) :
    ∀ (l : List Pixel) (i : Nat) (s : Scan), accOK s.acc → accOK (scanAux bg w i l s).acc := by
  intro l
  induction l with
  | nil => exact fun i s h => h
  | cons p ps ih =>
    intro i s h
    apply ih (i + 1)
    unfold scanStep
    split
    · exact h
    · exact accAdd_OK s.acc p h

theorem scanImg_accOK (img : Img) : accOK (scanImg img).acc :=
  scanAux_accOK (bgPix img) img.width img.data 0 (scanInit img)
    ⟨by simp [scanInit], by simp [scanInit]⟩

theorem rgb_ext (u v : RGB) (h1 : u.r = v.r) (h2 : u.g = v.g) (h3 : u.b = v.b) :
    u = v := by
  cases u
  cases v
  simp only at h1 h2 h3
  rw [h1, h2, h3]

/-- Rounded average of a channel sum, upper bound. -/
theorem avg_upper (S n k : Nat) (hn : 1 ≤ n) (hS : S ≤ k * n + 11 * n) :
    (2 * S + n) / (2 * n) ≤ k + 11 := by
  have h2 : 2 * S + n < (k + 12) * (2 * n) := by nlinarith
  have h3 : (2 * S + n) / (2 * n) < k + 12 :=
    (Nat.div_lt_iff_lt_mul (by omega)).mpr h2
  omega

/-- Rounded average of a channel sum, lower bound. -/
theorem avg_lower (S n k : Nat) (hn : 1 ≤ n) (hS : k * n ≤ S + 12 * n) :
    k ≤ (2 * S + n) / (2 * n) + 12 := by
  by_contra hcon
  push_neg at hcon
  have hdm := Nat.div_add_mod (2 * S + n) (2 * n)
  have hmod : (2 * S + n) % (2 * n) < 2 * n := Nat.mod_lt _ (by omega)
  set q := (2 * S + n) / (2 * n) with hq
  have h1 : (q + 13) * n ≤ k * n := Nat.mul_le_mul_right n (by omega)
  nlinarith

/-- Distinct accumulator keys give distinct bucket-average colors. -/
theorem bucketAvg_ne_of_key_ne (e f : RGB × Bucket) (he : entryOK e) (hf : entryOK f)
    (hk : e.1 ≠ f.1) : bucketAvg e.2 ≠ bucketAvg f.2 := by
  obtain ⟨hec, her0, heg0, heb0, he1, he2, he3, he4, he5, he6⟩ := he
  obtain ⟨hfc, hfr0, hfg0, hfb0, hf1, hf2, hf3, hf4, hf5, hf6⟩ := hf
  have her_lo := avg_lower e.2.r e.2.count e.1.r hec he1
  have her_hi := avg_upper e.2.r e.2.count e.1.r hec he2
  have heg_lo := avg_lower e.2.g e.2.count e.1.g hec he3
  have heg_hi := avg_upper e.2.g e.2.count e.1.g hec he4
  have heb_lo := avg_lower e.2.b e.2.count e.1.b hec he5
  have heb_hi := avg_upper e.2.b e.2.count e.1.b hec he6
  have hfr_lo := avg_lower f.2.r f.2.count f.1.r hfc hf1
  have hfr_hi := avg_upper f.2.r f.2.count f.1.r hfc hf2
  have hfg_lo := avg_lower f.2.g f.2.count f.1.g hfc hf3
  have hfg_hi := avg_upper f.2.g f.2.count f.1.g hfc hf4
  have hfb_lo := avg_lower f.2.b f.2.count f.1.b hfc hf5
  have hfb_hi := avg_upper f.2.b f.2.count f.1.b hfc hf6
  intro heq
  apply hk
  have hvr := congrArg RGB.r heq
  have hvg := congrArg RGB.g heq
  have hvb := congrArg RGB.b heq
  simp only [bucketAvg] at hvr hvg hvb
  refine rgb_ext e.1 f.1 ?_ ?_ ?_ <;> omega

/-- The candidate colors of any run are pairwise distinct. -/
theorem candidatesOf_nodup (img : Img) : (candidatesOf img).Nodup := by
  obtain ⟨hnd, hent⟩ := scanImg_accOK img
  set acc := (scanImg img).acc with hacc
  have hpw : acc.Pairwise (fun e f => bucketAvg e.2 ≠ bucketAvg f.2) := by
    have hkeys : acc.Pairwise (fun e f => e.1 ≠ f.1) := by
      rw [← List.pairwise_map]
      exact hnd
    refine List.Pairwise.imp_of_mem ?_ hkeys
    intro e f he hf hne
    exact bucketAvg_ne_of_key_ne e f (hent e he) (hent f hf) hne
  have hnodup1 : (acc.map (fun e => bucketAvg e.2)).Nodup :=
    List.pairwise_map.mpr hpw
  have hmm : acc.map (fun e => bucketAvg e.2) = (acc.map Prod.snd).map bucketAvg := by
    rw [List.map_map]
    rfl
  rw [hmm] at hnodup1
  have hperm : ((sortDesc (acc.map Prod.snd)).map bucketAvg).Perm
      ((acc.map Prod.snd).map bucketAvg) :=
    (sortDesc_perm (acc.map Prod.snd)).map bucketAvg
  unfold candidatesOf
  rw [← hacc]
  exact hperm.nodup_iff.mpr hnodup1

/-! ### Crop-stage lemmas -/

theorem sizeQ_eq_sideNat (m : Nat) (h5 : (6 * m) % 5 = 0) : sizeQ m = (sideNat m : ℚ) := by
  unfold sizeQ sideNat
  obtain ⟨t, ht⟩ := Nat.dvd_of_mod_eq_zero h5
  have hcast : (6 * (m : ℚ)) = ((6 * m : ℕ) : ℚ) := by push_cast; ring
  rw [hcast, ht, Nat.mul_div_cancel_left t (by norm_num)]
  push_cast
  ring

theorem sideNat_ge (m : Nat) (h5 : (6 * m) % 5 = 0) : m ≤ sideNat m := by
  unfold sideNat
  obtain ⟨t, ht⟩ := Nat.dvd_of_mod_eq_zero h5
  rw [ht, Nat.mul_div_cancel_left t (by norm_num)]
  omega

/-- Under `cropBuf`'s guard, the rational `drawImage` offset is exactly
the natural number the copy uses. -/
theorem destQ_eq_of_guard (m len : Nat) (h5 : (6 * m) % 5 = 0)
    (h2 : (sideNat m - len) % 2 = 0) (hlen : len ≤ sideNat m) :
    destQ m len = (((sideNat m - len) / 2 : Nat) : ℚ) := by
  unfold destQ
  rw [sizeQ_eq_sideNat m h5]
  have hc : ((sideNat m : ℚ)) - len = ((sideNat m - len : ℕ) : ℚ) := by
    rw [Nat.cast_sub hlen]
  rw [hc]
  obtain ⟨u, hu⟩ := Nat.dvd_of_mod_eq_zero h2
  rw [hu, Nat.mul_div_cancel_left u (by norm_num)]
  push_cast
  ring

/-- The `drawImage` destination offsets are nonnegative and center the
content: `2 · destX + cw = size` and `2 · destY + ch = size`. -/
theorem destQ_center (m len : Nat) (hlen : len ≤ m) :
    0 ≤ destQ m len ∧ 2 * destQ m len + len = sizeQ m := by
  unfold destQ sizeQ
  constructor
  · have hm : (len : ℚ) ≤ m := by exact_mod_cast hlen
    have hm0 : (0 : ℚ) ≤ m := by positivity
    have h65 : (m : ℚ) ≤ 6 * m / 5 := by linarith
    have : (len : ℚ) ≤ 6 * m / 5 := le_trans hm h65
    linarith
  · ring

/-- The copy performed when `cropBuf` succeeds: the guard conditions hold,
the output is a `sideNat`-sided square, and every content pixel appears at
its centered position — bit-exactly for pixels with nonzero alpha, and as
transparent black for fully transparent pixels (premultiplied storage). -/
theorem cropBuf_spec (buf : List Pixel) (w minX minY cw ch : Nat) (out : Img)
    (h : cropBuf buf w minX minY cw ch = some out) :
    (6 * max cw ch) % 5 = 0 ∧
    (sideNat (max cw ch) - cw) % 2 = 0 ∧ (sideNat (max cw ch) - ch) % 2 = 0 ∧
    out.width = sideNat (max cw ch) ∧ out.height = sideNat (max cw ch) ∧
    ∀ x y, x < cw → y < ch →
      out.data[(((sideNat (max cw ch) - ch) / 2) + y) * sideNat (max cw ch) +
        (((sideNat (max cw ch) - cw) / 2) + x)]? =
        some (
          if (buf.getD ((minY + y) * w + (minX + x)) ⟨0, 0, 0, 0⟩).a == 0 then ⟨0, 0, 0, 0⟩
          else buf.getD ((minY + y) * w + (minX + x)) ⟨0, 0, 0, 0⟩) := by
  simp only [cropBuf] at h
  split at h
  case isFalse => exact absurd h (by simp)
  case isTrue hg =>
    obtain ⟨g1, g2, g3⟩ := hg
    obtain rfl : (⟨sideNat (max cw ch), sideNat (max cw ch), _⟩ : Img) = out :=
      Option.some.inj h
    refine ⟨g1, g2, g3, rfl, rfl, ?_⟩
    intro x y hx hy
    set m := max cw ch with hm
    set side := sideNat m with hside
    set dxn := (side - cw) / 2 with hdxn
    set dyn := (side - ch) / 2 with hdyn
    have hcwle : cw ≤ side := le_trans (le_max_left cw ch) (sideNat_ge m g1)
    have hchle : ch ≤ side := le_trans (le_max_right cw ch) (sideNat_ge m g1)
    have hdx2 : 2 * dxn = side - cw := by
      rw [hdxn]
      omega
    have hdy2 : 2 * dyn = side - ch := by
      rw [hdyn]
      omega
    have hxlt : dxn + x < side := by omega
    have hylt : dyn + y < side := by omega
    have hside0 : 0 < side := by omega
    have hidx : (dyn + y) * side + (dxn + x) < side * side := by
      have h1 : (dyn + y) * side + (dxn + x) < (dyn + y) * side + side :=
        Nat.add_lt_add_left hxlt _
      have h2 : (dyn + y) * side + side = (dyn + y + 1) * side := by ring
      have h3 : (dyn + y + 1) * side ≤ side * side :=
        Nat.mul_le_mul_right side (by omega)
      omega
    have hmod : ((dyn + y) * side + (dxn + x)) % side = dxn + x := by
      rw [Nat.add_comm, Nat.add_mul_mod_self_right, Nat.mod_eq_of_lt hxlt]
    have hdiv : ((dyn + y) * side + (dxn + x)) / side = dyn + y := by
      rw [Nat.add_comm, Nat.add_mul_div_right _ _ hside0, Nat.div_eq_of_lt hxlt]
      omega
    rw [List.getElem?_map, List.getElem?_range hidx]
    simp only [Option.map_some', hmod, hdiv]
    rw [if_pos ⟨Nat.le_add_right .., by omega, Nat.le_add_right .., by omega⟩]
    rw [Nat.add_sub_cancel_left, Nat.add_sub_cancel_left]

/-! ### Control-flow lemmas for `processLogo` -/

theorem processLogo_badImage (env : Env) (url : String) :
    processLogo env (.badImage url) = .passthrough url := rfl

theorem processLogo_noCtx1 (env : Env) (url : String) (img : Img)
    (h : env.ctx1 = false) :
    processLogo env (.image url img) = .passthrough url := by
  simp [processLogo, h]

theorem processLogo_noContent (env : Env) (url : String) (img : Img)
    (h : (scanImg img).hasContent = false) :
    processLogo env (.image url img) = .passthrough url := by
  simp [processLogo, h]

theorem processLogo_noCtx2 (env : Env) (url : String) (img : Img)
    (h : env.ctx2 = false) :
    processLogo env (.image url img) = .passthrough url := by
  by_cases h1 : env.ctx1 = false
  · simp [processLogo, h1]
  · simp [processLogo, h1, h]

theorem processLogo_processed (env : Env) (url : String) (img : Img)
    (h1 : env.ctx1 = true) (h2 : (scanImg img).hasContent = true)
    (h3 : env.ctx2 = true) :
    processLogo env (.image url img) =
      .processed
        (sideNat (max ((scanImg img).maxX - (scanImg img).minX + 1)
          ((scanImg img).maxY - (scanImg img).minY + 1)))
        (cropBuf (remapBuf (paletteOf img) (pass1buf img)) img.width
          (scanImg img).minX (scanImg img).minY
          ((scanImg img).maxX - (scanImg img).minX + 1)
          ((scanImg img).maxY - (scanImg img).minY + 1)) := by
  simp [processLogo, h1, h2, h3]

/-! ### Re-running the pipeline on an alpha-masked single-color buffer -/

/-- An alpha-masked single-color buffer: the corner reference pixel is
fully transparent, every pixel is either fully transparent or fully opaque
with color `c`, and at least one pixel is opaque.  A successful pipeline
output whose foreground was entirely opaque and whose palette was the
single color `c` has exactly this shape. -/
def maskedMono (c : RGB) (img : Img) : Prop :=
  (bgPix img).a = 0 ∧
  (∀ p ∈ img.data, p.a = 0 ∨ (p.a = 255 ∧ p.rgb = c)) ∧
  (∃ p ∈ img.data, p.a = 255)

theorem sortDesc_singleton (b : Bucket) : sortDesc [b] = [b] := rfl

theorem selectPalette_singleton (c : RGB) : selectPalette [c] = [c] := rfl

theorem mono_avg (n x : Nat) (hn : 1 ≤ n) : (2 * (n * x) + n) / (2 * n) = x := by
  rw [show 2 * (n * x) + n = n * (2 * x + 1) from by ring,
    show 2 * n = n * 2 from by ring,
    Nat.mul_div_mul_left _ _ (by omega : 0 < n)]
  omega

/-- Over an alpha-masked single-color pixel list, the accumulator stays
empty or holds exactly the one bucket of color `c`. -/
theorem scanAux_maskedMono (bg : Pixel) (w : Nat) (c : RGB) (hbg : bg.a = 0) :
    ∀ (l : List Pixel) (i : Nat) (s : Scan),
    (∀ p ∈ l, p.a = 0 ∨ (p.a = 255 ∧ p.rgb = c)) →
    (s.acc = [] ∨ ∃ n, 1 ≤ n ∧ s.acc = [(bucketKey c, ⟨n * c.r, n * c.g, n * c.b, n⟩)]) →
    ((scanAux bg w i l s).acc = [] ∨
      ∃ n, 1 ≤ n ∧
        (scanAux bg w i l s).acc = [(bucketKey c, ⟨n * c.r, n * c.g, n * c.b, n⟩)]) := by
  intro l
  induction l with
  | nil => exact fun i s _ hs => hs
  | cons p ps ih =>
    intro i s hl hs
    apply ih (i + 1)
    · exact fun q hq => hl q (List.mem_cons_of_mem p hq)
    · rcases hl p (List.mem_cons_self ..) with hp | ⟨hpa, hprgb⟩
      · have hbgp : isBackground bg p = true := by
          unfold isBackground
          simp [hbg, hp]
        unfold scanStep
        rw [hbgp]
        simpa using hs
      · have hbgp : isBackground bg p = false := by
          unfold isBackground
          simp [hbg, hpa]
        unfold scanStep
        rw [hbgp]
        simp only [Bool.false_eq_true, if_false]
        have hpr : p.r = c.r := congrArg RGB.r hprgb
        have hpg : p.g = c.g := congrArg RGB.g hprgb
        have hpb : p.b = c.b := congrArg RGB.b hprgb
        rcases hs with hs | ⟨n, hn, hs⟩
        · right
          refine ⟨1, le_refl 1, ?_⟩
          simp only [hs, accAdd, hprgb]
          rw [hpr, hpg, hpb]
          simp
        · right
          refine ⟨n + 1, by omega, ?_⟩
          simp only [hs, accAdd, hprgb, if_pos rfl]
          rw [hpr, hpg, hpb]
          have e1 : n * c.r + c.r = (n + 1) * c.r := by ring
          have e2 : n * c.g + c.g = (n + 1) * c.g := by ring
          have e3 : n * c.b + c.b = (n + 1) * c.b := by ring
          rw [e1, e2, e3]
          simp

/-- Running the scan on an alpha-masked single-color buffer: content is
found, the palette is recomputed as exactly `[c]`, and a pixel is
classified background iff it is fully transparent. -/
theorem maskedMono_palette (c : RGB) (img : Img) (h : maskedMono c img) :
    (scanImg img).hasContent = true ∧ paletteOf img = [c] ∧
    (∀ p ∈ img.data, (isBackground (bgPix img) p = true ↔ p.a = 0)) := by
  obtain ⟨hbg, hall, ⟨p0, hp0mem, hp0a⟩⟩ := h
  have hiff : ∀ p ∈ img.data, (isBackground (bgPix img) p = true ↔ p.a = 0) := by
    intro p hp
    unfold isBackground
    simp only [hbg]
    rcases hall p hp with hp1 | ⟨hp1, _⟩ <;> simp [hp1]
  have hcontent : (scanImg img).hasContent = true := by
    obtain ⟨j, hj⟩ := List.get?_of_mem hp0mem
    rw [List.get?_eq_getElem?] at hj
    have hfg : isBackground (bgPix img) p0 = false := by
      rw [← Bool.not_eq_true]
      intro hc
      have := (hiff p0 hp0mem).mp hc
      omega
    exact (scanAux_reach (bgPix img) img.width img.data j 0 (scanInit img) p0 hj hfg).1
  refine ⟨hcontent, ?_, hiff⟩
  have hacc := scanAux_maskedMono (bgPix img) img.width c hbg img.data 0 (scanInit img)
    hall (Or.inl rfl)
  rcases hacc with hacc | ⟨n, hn, hacc⟩
  · exact absurd hacc (scanImg_content_acc img hcontent)
  · have hcands : candidatesOf img = [c] := by
      unfold candidatesOf
      rw [show (scanImg img).acc = [(bucketKey c, ⟨n * c.r, n * c.g, n * c.b, n⟩)]
        from hacc]
      simp only [List.map_cons, List.map_nil, sortDesc_singleton]
      congr 1
      unfold bucketAvg
      simp only
      rw [mono_avg n c.r hn, mono_avg n c.g hn, mono_avg n c.b hn]
    unfold paletteOf
    rw [hcands, selectPalette_singleton]

def redC : RGB := ⟨255, 0, 0⟩
def blueC : RGB := ⟨0, 0, 255⟩

/-! ### Claim theorems -/

/-- C5: on every internal failure — decode error, missing drawing context
(at initial processing or at the crop stage), or zero foreground pixels —
the function resolves with the original input reference string unchanged.
`processLogo` is a total function into `Result` (the promise executor
installs no rejection path), so no error ever reaches the caller. -/
theorem C5_fallbacks (env : Env) (url : String) (img : Img) :
    (processLogo env (.badImage url) = .passthrough url) ∧
    (env.ctx1 = false → processLogo env (.image url img) = .passthrough url) ∧
    ((scanImg img).hasContent = false →
      processLogo env (.image url img) = .passthrough url) ∧
    (env.ctx2 = false → processLogo env (.image url img) = .passthrough url) :=
  ⟨processLogo_badImage env url, processLogo_noCtx1 env url img,
   processLogo_noContent env url img, processLogo_noCtx2 env url img⟩

theorem C5_witness :
    processLogo ⟨true, true⟩ (.badImage "logo.png") = .passthrough "logo.png" ∧
    processLogo ⟨false, true⟩ (.image "logo.png" imgW) = .passthrough "logo.png" ∧
    processLogo ⟨true, false⟩ (.image "logo.png" imgW) = .passthrough "logo.png" :=
  ⟨(C5_fallbacks ⟨true, true⟩ "logo.png" imgW).1,
   (C5_fallbacks ⟨false, true⟩ "logo.png" imgW).2.1 rfl,
   (C5_fallbacks ⟨true, false⟩ "logo.png" imgW).2.2.2 rfl⟩

/-- C6: per pixel, when the reference pixel (buffer index 0) has alpha
exactly 0, background ⟺ alpha < 20; otherwise background ⟺ squared
Euclidean RGB distance to the reference < 1600 (i.e. distance < 40); and
the first pass immediately zeroes the alpha of exactly the background
pixels, leaving the others untouched. -/
theorem C6_classifier (img : Img) (i : Nat) (p : Pixel)
    (hp : img.data[i]? = some p) :
    ((bgPix img).a = 0 → (isBackground (bgPix img) p = true ↔ p.a < 20)) ∧
    ((bgPix img).a ≠ 0 →
      (isBackground (bgPix img) p = true ↔ d2 p.rgb (bgPix img).rgb < 1600)) ∧
    (isBackground (bgPix img) p = true → (pass1buf img)[i]? = some { p with a := 0 }) ∧
    (isBackground (bgPix img) p = false → (pass1buf img)[i]? = some p) := by
  refine ⟨?_, ?_, ?_, ?_⟩
  · intro h
    unfold isBackground
    simp [h]
  · intro h
    have hbeq : ((bgPix img).a == 0) = false := by simpa using h
    unfold isBackground
    simp [hbeq]
  · intro h
    rw [pass1buf_getElem?, hp]
    simp [h]
  · intro h
    rw [pass1buf_getElem?, hp]
    simp [h]

theorem C6_witness :
    ((bgPix imgW).a ≠ 0 →
      (isBackground (bgPix imgW) redPix = true ↔
        d2 redPix.rgb (bgPix imgW).rgb < 1600)) ∧
    (isBackground (bgPix imgW) redPix = false → (pass1buf imgW)[1]? = some redPix) :=
  ⟨(C6_classifier imgW 1 redPix (by decide)).2.1,
   (C6_classifier imgW 1 redPix (by decide)).2.2.2⟩

/-- C1: when the input decodes, contexts are available and at least one
foreground pixel exists, every pixel of the buffer after the remap pass
has alpha exactly 0 or exactly 255; in each pass-through case (decode
error, missing context at either stage, zero foreground pixels) the
result equals the original input reference exactly. -/
theorem C1_alpha_binary (env : Env) (url : String) (img : Img) :
    ((scanImg img).hasContent = true →
      ∀ p ∈ remappedOf img, p.a = 0 ∨ p.a = 255) ∧
    (processLogo env (.badImage url) = .passthrough url) ∧
    (env.ctx1 = false → processLogo env (.image url img) = .passthrough url) ∧
    ((scanImg img).hasContent = false →
      processLogo env (.image url img) = .passthrough url) ∧
    (env.ctx2 = false → processLogo env (.image url img) = .passthrough url) := by
  refine ⟨?_, processLogo_badImage env url, processLogo_noCtx1 env url img,
    processLogo_noContent env url img, processLogo_noCtx2 env url img⟩
  intro h p' hp'
  have hpal : 0 < (paletteOf img).length :=
    List.length_pos.mpr (paletteOf_ne_nil img h)
  unfold remappedOf remapBuf at hp'
  rw [if_pos hpal] at hp'
  obtain ⟨p, _, rfl⟩ := List.mem_map.mp hp'
  by_cases hpa : (p.a == 0) = true
  · rw [if_pos hpa]
    exact Or.inl (by simpa using hpa)
  · rw [if_neg hpa]
    exact Or.inr rfl

theorem C1_witness :
    (scanImg imgW).hasContent = true ∧
    ∀ p ∈ remappedOf imgW, p.a = 0 ∨ p.a = 255 :=
  ⟨by decide, (C1_alpha_binary ⟨true, true⟩ "u" imgW).1 (by decide)⟩

/-- C2: every pixel with nonzero alpha at remap time has its pre-remap RGB
equal to the original pixel's RGB (the first pass only changes alpha), is
rewritten to the first palette entry of minimal squared Euclidean distance
— strictly closer than every earlier palette entry, no farther than any
entry — and receives alpha 255; in particular its new RGB is a member of
the computed palette. -/
theorem C2_remap_nearest (img : Img) (i : Nat) (p : Pixel)
    (hc : (scanImg img).hasContent = true)
    (hp : (pass1buf img)[i]? = some p) (ha : p.a ≠ 0) :
    ∃ p0 l1 l2, img.data[i]? = some p0 ∧ p0.rgb = p.rgb ∧
      paletteOf img = l1 ++ remapPix (paletteOf img) p.rgb :: l2 ∧
      (remappedOf img)[i]? = some ⟨(remapPix (paletteOf img) p.rgb).r,
        (remapPix (paletteOf img) p.rgb).g, (remapPix (paletteOf img) p.rgb).b, 255⟩ ∧
      (∀ q ∈ paletteOf img, d2 p.rgb (remapPix (paletteOf img) p.rgb) ≤ d2 p.rgb q) ∧
      (∀ q ∈ l1, d2 p.rgb (remapPix (paletteOf img) p.rgb) < d2 p.rgb q) := by
  have hpal : (paletteOf img) ≠ [] := paletteOf_ne_nil img hc
  have hpal' : 0 < (paletteOf img).length := List.length_pos.mpr hpal
  rw [pass1buf_getElem?] at hp
  obtain ⟨p0, hp0, hf⟩ := Option.map_eq_some'.mp hp
  have hrgb : p0.rgb = p.rgb := by
    by_cases hb : isBackground (bgPix img) p0 = true
    · rw [if_pos hb] at hf
      rw [← hf]
      rfl
    · rw [if_neg hb] at hf
      rw [hf]
  obtain ⟨l1, l2, hsplit, hmin, hstrict⟩ := remapPix_spec (paletteOf img) p.rgb hpal
  refine ⟨p0, l1, l2, hp0, hrgb, hsplit, ?_, hmin, hstrict⟩
  unfold remappedOf
  rw [remapBuf_getElem? _ _ _ hpal', pass1buf_getElem?, hp0]
  simp only [Option.map_some']
  rw [hf]
  have hbeq : (p.a == 0) = false := by simpa using ha
  rw [if_neg (by rw [hbeq]; exact Bool.false_ne_true)]

theorem C2_witness :
    ∃ p0 l1 l2, imgW.data[1]? = some p0 ∧ p0.rgb = redPix.rgb ∧
      paletteOf imgW = l1 ++ remapPix (paletteOf imgW) redPix.rgb :: l2 ∧
      (remappedOf imgW)[1]? = some ⟨(remapPix (paletteOf imgW) redPix.rgb).r,
        (remapPix (paletteOf imgW) redPix.rgb).g,
        (remapPix (paletteOf imgW) redPix.rgb).b, 255⟩ ∧
      (∀ q ∈ paletteOf imgW,
        d2 redPix.rgb (remapPix (paletteOf imgW) redPix.rgb) ≤ d2 redPix.rgb q) ∧
      (∀ q ∈ l1, d2 redPix.rgb (remapPix (paletteOf imgW) redPix.rgb) < d2 redPix.rgb q) :=
  C2_remap_nearest imgW 1 redPix (by decide) (by decide) (by decide)

/-- C10: in color mode (reference alpha nonzero), a fully transparent
pixel whose squared RGB distance to the reference is ≥ 1600 (distance
≥ 40) is classified foreground — the scan records content, the final
bounding box brackets its coordinates, and its color bucket is present
with positive count — yet the remap pass skips it (alpha 0), so it
survives both passes fully transparent with unchanged RGB. -/
theorem C10_transparent_foreground (img : Img) (i : Nat) (p : Pixel)
    (hbga : (bgPix img).a ≠ 0) (hp : img.data[i]? = some p) (hpa : p.a = 0)
    (hd : 1600 ≤ d2 p.rgb (bgPix img).rgb) :
    isBackground (bgPix img) p = false ∧
    (scanImg img).hasContent = true ∧
    (scanImg img).minX ≤ i % img.width ∧ i % img.width ≤ (scanImg img).maxX ∧
    (scanImg img).minY ≤ i / img.width ∧ i / img.width ≤ (scanImg img).maxY ∧
    (∃ b, (bucketKey p.rgb, b) ∈ (scanImg img).acc ∧ 1 ≤ b.count) ∧
    (pass1buf img)[i]? = some p ∧
    (remappedOf img)[i]? = some p := by
  have hbeq : ((bgPix img).a == 0) = false := by simpa using hbga
  have hfg : isBackground (bgPix img) p = false := by
    unfold isBackground
    simp [hbeq, hd, not_lt.mpr hd]
  have hreach := scanAux_reach (bgPix img) img.width img.data i 0 (scanInit img) p hp hfg
  simp only [Nat.zero_add] at hreach
  obtain ⟨r1, r2, r3, r4, r5, r6⟩ := hreach
  have hpass1 : (pass1buf img)[i]? = some p := by
    rw [pass1buf_getElem?, hp]
    simp [hfg]
  refine ⟨hfg, r1, r2, r3, r4, r5, r6, hpass1, ?_⟩
  unfold remappedOf
  by_cases hpal : 0 < (paletteOf img).length
  · rw [remapBuf_getElem? _ _ _ hpal, hpass1]
    simp [hpa]
  · unfold remapBuf
    rw [if_neg hpal]
    exact hpass1

theorem C10_witness :
    isBackground (bgPix img9) bluePixT = false ∧
    (scanImg img9).hasContent = true ∧
    (scanImg img9).minX ≤ 70 % img9.width ∧ 70 % img9.width ≤ (scanImg img9).maxX ∧
    (scanImg img9).minY ≤ 70 / img9.width ∧ 70 / img9.width ≤ (scanImg img9).maxY ∧
    (∃ b, (bucketKey bluePixT.rgb, b) ∈ (scanImg img9).acc ∧ 1 ≤ b.count) ∧
    (pass1buf img9)[70]? = some bluePixT ∧
    (remappedOf img9)[70]? = some bluePixT :=
  C10_transparent_foreground img9 70 bluePixT (by decide) (by decide) (by decide)
    (by decide)

/-- C3 (amended): with at least one foreground pixel the palette has
between 1 and 4 entries, and all pairwise squared distances are ≥ 2025
(distance ≥ 45) whenever the greedy phase alone filled the palette (it
admitted 4 colors, so the fallback did not run).  The existence of 4
pairwise-separated candidates in the pool does not guarantee this: the
greedy phase can block on an earlier candidate (see the counterexample). -/
theorem C3_palette_size (img : Img) (h : (scanImg img).hasContent = true) :
    1 ≤ (paletteOf img).length ∧ (paletteOf img).length ≤ 4 ∧
    ((greedyT (tagFrom 0 (candidatesOf img))).length = 4 →
      (paletteOf img).Pairwise (fun p q => 2025 ≤ d2 p q)) := by
  refine ⟨List.length_pos.mpr (paletteOf_ne_nil img h), paletteOf_length_le img, ?_⟩
  intro h4
  have hsel : selectTagged (tagFrom 0 (candidatesOf img)) =
      greedyT (tagFrom 0 (candidatesOf img)) := by
    simp only [selectTagged]
    rw [if_neg]
    omega
  unfold paletteOf selectPalette
  rw [hsel]
  exact List.pairwise_map.mpr (greedyT_pairwise _)

theorem C3_witness :
    1 ≤ (paletteOf imgW).length ∧ (paletteOf imgW).length ≤ 4 ∧
    ((greedyT (tagFrom 0 (candidatesOf imgW))).length = 4 →
      (paletteOf imgW).Pairwise (fun p q => 2025 ≤ d2 p q)) :=
  C3_palette_size imgW (by decide)

/-- C3 counterexample: in `img3` the candidate pool is
`[xC, aC, bC, cC, dC]` and contains the four pairwise-separated colors
`aC, bC, cC, dC` (all squared distances ≥ 2025, i.e. ≥ 45); the final
palette has 4 entries, yet its pair `(xC, aC)` is at squared distance
1600 < 2025 (distance 40 < 45): the claimed implication fails. -/
theorem C3_cex :
    candidatesOf img3 = [xC, aC, bC, cC, dC] ∧
    (∀ c ∈ [aC, bC, cC, dC], c ∈ candidatesOf img3) ∧
    [aC, bC, cC, dC].Pairwise (fun p q => 2025 ≤ d2 p q) ∧
    (paletteOf img3).length = 4 ∧
    ¬ (paletteOf img3).Pairwise (fun p q => 2025 ≤ d2 p q) := by decide

/-- C4 (amended): for every content-bearing input with both contexts
available, the result is a processed square whose side is
`(6 · max(cw, ch)) / 5` in integer division, i.e. `⌊max(cw, ch) · 1.2⌋`:
the float size is truncated by the canvas width assignment.  The
specification's `ceil` is attained exactly when `max(cw, ch)` is a
multiple of 5. -/
theorem C4_output_side (env : Env) (url : String) (img : Img)
    (h1 : env.ctx1 = true) (h2 : (scanImg img).hasContent = true)
    (h3 : env.ctx2 = true) :
    ∃ out, processLogo env (.image url img) =
        .processed (sideNat (max (contentDims img).1 (contentDims img).2)) out ∧
      5 * sideNat (max (contentDims img).1 (contentDims img).2) ≤
        6 * max (contentDims img).1 (contentDims img).2 ∧
      6 * max (contentDims img).1 (contentDims img).2 <
        5 * sideNat (max (contentDims img).1 (contentDims img).2) + 5 ∧
      (5 ∣ max (contentDims img).1 (contentDims img).2 ↔
        5 * sideNat (max (contentDims img).1 (contentDims img).2) =
          6 * max (contentDims img).1 (contentDims img).2) := by
  refine ⟨_, processLogo_processed env url img h1 h2 h3, ?_, ?_, ?_⟩
  · have := Nat.div_add_mod (6 * max (contentDims img).1 (contentDims img).2) 5
    unfold sideNat
    omega
  · have hdm := Nat.div_add_mod (6 * max (contentDims img).1 (contentDims img).2) 5
    have hmod := Nat.mod_lt (6 * max (contentDims img).1 (contentDims img).2)
      (show 0 < 5 by norm_num)
    unfold sideNat
    omega
  · have hdm := Nat.div_add_mod (6 * max (contentDims img).1 (contentDims img).2) 5
    have hmod := Nat.mod_lt (6 * max (contentDims img).1 (contentDims img).2)
      (show 0 < 5 by norm_num)
    unfold sideNat
    constructor
    · intro ⟨t, ht⟩
      omega
    · intro h
      exact ⟨6 * max (contentDims img).1 (contentDims img).2 / 5 -
        max (contentDims img).1 (contentDims img).2, by omega⟩

theorem C4_witness :
    ∃ out, processLogo ⟨true, true⟩ (.image "u" imgW) =
        .processed (sideNat (max (contentDims imgW).1 (contentDims imgW).2)) out ∧
      5 * sideNat (max (contentDims imgW).1 (contentDims imgW).2) ≤
        6 * max (contentDims imgW).1 (contentDims imgW).2 ∧
      6 * max (contentDims imgW).1 (contentDims imgW).2 <
        5 * sideNat (max (contentDims imgW).1 (contentDims imgW).2) + 5 ∧
      (5 ∣ max (contentDims imgW).1 (contentDims imgW).2 ↔
        5 * sideNat (max (contentDims imgW).1 (contentDims imgW).2) =
          6 * max (contentDims imgW).1 (contentDims imgW).2) :=
  C4_output_side ⟨true, true⟩ "u" imgW rfl (by decide) rfl

/-- C4 counterexample: scenario A of the specification (10×10 white image
with a red 4×4 block) has content dims 4×4, yet the processed square's
side is 4 — the truncation of the float 4×1.2 — and not
`⌈4 × 1.2⌉ = 5` as the claim states. -/
theorem C4_cex :
    contentDims imgA = (4, 4) ∧
    processLogo ⟨true, true⟩ (.image "u" imgA) = .processed 4 none ∧
    (⌈(4 : ℚ) * 6 / 5⌉ = (5 : ℤ)) ∧ (4 : ℤ) ≠ 5 := by
  refine ⟨by decide, by decide, ?_, by decide⟩
  rw [show ((4 : ℚ) * 6 / 5) = 24 / 5 from by norm_num, Int.ceil_eq_iff]
  norm_num

/-- C7: when the greedy distinctness selection admits fewer than 4 colors
and candidates remain, the fallback fills the remaining slots from the
original count-descending candidate ranking, skipping exactly the
candidates whose color is already in the palette, until 4 slots are
filled or candidates are exhausted: the palette is the greedy output
followed by the first not-yet-admitted candidates in ranking order.  (The
source's `palette.includes` test is object identity; the pipeline's
candidate colors are pairwise distinct — `candidatesOf_nodup` — so object
identity and color equality coincide, including the degenerate skip of
exact duplicates the claim describes.) -/
theorem C7_fallback_fill (img : Img) :
    paletteOf img = greedyColors (candidatesOf img) ++
      ((candidatesOf img).filter
        (fun c => decide (c ∉ greedyColors (candidatesOf img)))).take
        (4 - (greedyColors (candidatesOf img)).length) :=
  selectPalette_eq_of_nodup (candidatesOf img) (candidatesOf_nodup img)

/-- C8 (amended): the copy offsets are computed from the un-truncated
float size `max(cw, ch) × 1.2` — not from the claimed
`⌈max(cw, ch) × 1.2⌉` — and center the content: `2·destX + cw = size =
2·destY + ch`, with both offsets nonnegative.  Only when both offsets are
integers is the draw an exact copy (which `cropBuf` then models): the
offsets agree with the integer ones, the output is a `sideNat`-sided
square, every content pixel with nonzero alpha is copied bit-exactly to
its centered position, and fully transparent pixels arrive as transparent
black (premultiplied canvas storage).  At fractional offsets the platform
resamples and no bit-exact copy exists (see the counterexample). -/
theorem C8_copy (img : Img) (_hc : (scanImg img).hasContent = true) :
    ∀ cw ch m, cw = (contentDims img).1 → ch = (contentDims img).2 → m = max cw ch →
    (0 ≤ destQ m cw ∧ 2 * destQ m cw + cw = sizeQ m ∧
     0 ≤ destQ m ch ∧ 2 * destQ m ch + ch = sizeQ m) ∧
    ∀ out, cropBuf (remappedOf img) img.width (scanImg img).minX (scanImg img).minY
        cw ch = some out →
      destQ m cw = (((sideNat m - cw) / 2 : ℕ) : ℚ) ∧
      destQ m ch = (((sideNat m - ch) / 2 : ℕ) : ℚ) ∧
      out.width = sideNat m ∧ out.height = sideNat m ∧
      ∀ x y, x < cw → y < ch →
        out.data[((sideNat m - ch) / 2 + y) * sideNat m +
          ((sideNat m - cw) / 2 + x)]? =
          some (if ((remappedOf img).getD (((scanImg img).minY + y) * img.width +
              ((scanImg img).minX + x)) ⟨0, 0, 0, 0⟩).a == 0 then ⟨0, 0, 0, 0⟩
            else (remappedOf img).getD (((scanImg img).minY + y) * img.width +
              ((scanImg img).minX + x)) ⟨0, 0, 0, 0⟩) := by
  intro cw ch m hcw hch hm
  subst hm
  constructor
  · obtain ⟨hx0, hxc⟩ := destQ_center (max cw ch) cw (le_max_left ..)
    obtain ⟨hy0, hyc⟩ := destQ_center (max cw ch) ch (le_max_right ..)
    exact ⟨hx0, hxc, hy0, hyc⟩
  · intro out hout
    obtain ⟨g1, g2, g3, hw, hh, hpix⟩ :=
      cropBuf_spec (remappedOf img) img.width (scanImg img).minX (scanImg img).minY
        cw ch out hout
    refine ⟨?_, ?_, hw, hh, hpix⟩
    · exact destQ_eq_of_guard (max cw ch) cw g1 g2
        (le_trans (le_max_left ..) (sideNat_ge _ g1))
    · exact destQ_eq_of_guard (max cw ch) ch g1 g3
        (le_trans (le_max_right ..) (sideNat_ge _ g1))

theorem C8_witness :
    (0 ≤ destQ (max 10 10) 10 ∧ 2 * destQ (max 10 10) 10 + 10 = sizeQ (max 10 10) ∧
     0 ≤ destQ (max 10 10) 10 ∧ 2 * destQ (max 10 10) 10 + 10 = sizeQ (max 10 10)) ∧
    ∀ out, cropBuf (remappedOf img9) img9.width (scanImg img9).minX
        (scanImg img9).minY 10 10 = some out →
      destQ (max 10 10) 10 = (((sideNat (max 10 10) - 10) / 2 : ℕ) : ℚ) ∧
      destQ (max 10 10) 10 = (((sideNat (max 10 10) - 10) / 2 : ℕ) : ℚ) ∧
      out.width = sideNat (max 10 10) ∧ out.height = sideNat (max 10 10) ∧
      ∀ x y, x < 10 → y < 10 →
        out.data[((sideNat (max 10 10) - 10) / 2 + y) * sideNat (max 10 10) +
          ((sideNat (max 10 10) - 10) / 2 + x)]? =
          some (if ((remappedOf img9).getD (((scanImg img9).minY + y) * img9.width +
              ((scanImg img9).minX + x)) ⟨0, 0, 0, 0⟩).a == 0 then ⟨0, 0, 0, 0⟩
            else (remappedOf img9).getD (((scanImg img9).minY + y) * img9.width +
              ((scanImg img9).minX + x)) ⟨0, 0, 0, 0⟩) :=
  C8_copy img9 (by decide) 10 10 (max 10 10) (by decide) (by decide) rfl

/-- C8 counterexample: for scenario A the content is 4×4.  The claimed
offset `(squareSide − cw)/2` with `squareSide = ⌈4 × 1.2⌉ = 5` would be
1/2, but the offset the code passes to the draw is
`(size − cw)/2 = (4.8 − 4)/2 = 2/5 ≠ 1/2`, which is not even an integer,
so the draw resamples instead of copying pixels bit-exactly; the model
accordingly records no exact copy (the processed result carries `none`). -/
theorem C8_cex :
    contentDims imgA = (4, 4) ∧
    destQ (max 4 4) 4 = 2 / 5 ∧
    ((5 : ℚ) - 4) / 2 = 1 / 2 ∧
    (2 / 5 : ℚ) ≠ 1 / 2 ∧
    (2 / 5 : ℚ).den ≠ 1 ∧
    processLogo ⟨true, true⟩ (.image "u" imgA) = .processed 4 none := by
  refine ⟨by decide, ?_, by norm_num, by norm_num, ?_, by decide⟩
  · unfold destQ sizeQ
    norm_num
  · norm_num

/-- C9 (amended): re-running the pipeline reproduces the palette when the
first run's output buffer is alpha-masked in a single color — every pixel
fully transparent or fully opaque with color `c`, corner transparent,
some pixel opaque —: the second run finds content, computes the palette
`[c]` again, and classifies a pixel foreground exactly when it is opaque.
In general the claim fails: palette colors and bounding-box extremes
contributed by zero-alpha foreground pixels of the first run drop out of
the second run (see the counterexample). -/
theorem C9_rerun_mono (c : RGB) (img : Img) (h : maskedMono c img) :
    (scanImg img).hasContent = true ∧ paletteOf img = [c] ∧
    (∀ p ∈ img.data, (isBackground (bgPix img) p = true ↔ p.a = 0)) :=
  maskedMono_palette c img h

theorem C9_witness :
    (scanImg img9out).hasContent = true ∧ paletteOf img9out = [redC] ∧
    (∀ p ∈ img9out.data, (isBackground (bgPix img9out) p = true ↔ p.a = 0)) :=
  C9_rerun_mono redC img9out (by unfold maskedMono; exact ⟨by decide, by decide, by decide⟩)

/-- C9 counterexample: `img9` processes successfully (content 10×10, so
the copy offsets are integral and the output buffer is `img9out` exactly),
with palette `[red, blue]` — the fully transparent blue pixel is
foreground and contributes a bucket.  Re-running the pipeline on `img9out`
yields palette `[red]` ≠ `[red, blue]` and content dims 9×10 ≠ 10×10: the
transparent foreground pixel dropped out of both the palette and the
bounding box, so neither is preserved even up to re-centering. -/
theorem C9_cex :
    processLogo ⟨true, true⟩ (.image "u" img9) = .processed 12 (some img9out) ∧
    paletteOf img9 = [redC, blueC] ∧
    paletteOf img9out = [redC] ∧
    paletteOf img9out ≠ paletteOf img9 ∧
    contentDims img9 = (10, 10) ∧
    contentDims img9out = (9, 10) := by decide

end LogoProc
